import Mathlib

/-!
Verification development for the `merge_manager` Django application.

The Python sources are shallowly embedded: Python primitive values become
the inductive `Value`; Python dicts (field maps, result sections, contexts)
become association lists `List (String × α)` preserving insertion order;
the relational store (entity rows, many-to-many join tables, reverse
foreign keys) becomes the explicit `Store` record; every write operation
the service issues is recorded in an explicit event trace, so that the
dry-run contract ("zero write calls") is directly expressible.

Source files embedded:
  - src/services/strategies.py  (built-in field strategies)
  - src/services/merge.py       (MergeService)
  - src/config.py               (MergeProfileRegistry)
  - src/settings.py             (defaults relevant to the merge path)
-/

namespace MergeManager

/-- Python primitive values as they occur on model fields: `None`, `str`,
`int`, `bool`.  `merge.py`'s `_serialize_value` passes all of these through
unchanged, so serialization is the identity on this type. -/
inductive Value where
  | vnull : Value
  | vstr (s : String) : Value
  | vint (n : Int) : Value
  | vbool (b : Bool) : Value
  deriving DecidableEq, Repr

/-- `strategies._is_empty`: `value in {None, ''}`.  Python equality makes
no non-`None`, non-string value equal to `None` or `''`, so only `vnull`
and `vstr ""` are empty. -/
def isEmptyVal : Value → Bool
  | .vnull => true
  | .vstr s => s = ""
  | .vint _ => false
  | .vbool _ => false

/-- Python `str()` / f-string conversion of a primitive value. -/
def valToStr : Value → String
  | .vnull => "None"
  | .vstr s => s
  | .vint n => toString n
  | .vbool b => if b then "True" else "False"

/-- `merge._serialize_value`: `str`, `int`, `float`, `bool` and `None` are
returned unchanged; anything else is stringified.  Every constructor of
`Value` is one of the pass-through primitives. -/
def serializeValue : Value → Value
  | .vnull => .vnull
  | .vstr s => .vstr s
  | .vint n => .vint n
  | .vbool b => .vbool b

/-- Association-list lookup, mirroring Python `dict.get` (first and only
binding for a key, since dict keys are unique). -/
def lookupA {κ α : Type} [DecidableEq κ] (l : List (κ × α)) (k : κ) : Option α :=
  (l.find? (fun kv => kv.1 = k)).map (fun kv => kv.2)

/-- Association-list update, mirroring Python `dict[k] = v`: replace the
value in place if the key exists (insertion position kept), else append. -/
def setA {κ α : Type} [DecidableEq κ] (l : List (κ × α)) (k : κ) (v : α) : List (κ × α) :=
  if (l.find? (fun kv => kv.1 = k)).isSome then
    l.map (fun kv => if kv.1 = k then (k, v) else kv)
  else
    l ++ [(k, v)]

/-- Association-list `dict.setdefault`: insert only when absent. -/
def setDefaultA {κ α : Type} [DecidableEq κ] (l : List (κ × α)) (k : κ) (v : α) : List (κ × α) :=
  if (l.find? (fun kv => kv.1 = k)).isSome then l else l ++ [(k, v)]

/-- Association-list `dict.pop(k, None)` key removal. -/
def removeA {κ α : Type} [DecidableEq κ] (l : List (κ × α)) (k : κ) : List (κ × α) :=
  l.filter (fun kv => ¬ kv.1 = k)

/-- The fields of an in-memory model instance (or a stored row): an
ordered association of field name to value. -/
abbrev Fields := List (String × Value)

/-- `getattr(instance, name)` for a model field; total with `vnull` as the
default so that the embedding stays executable (the merge path only reads
fields that exist on the model). -/
def getF (fs : Fields) (k : String) : Value :=
  (lookupA fs k).getD .vnull

/-- `setattr(instance, name, v)`. -/
def setF (fs : Fields) (k : String) (v : Value) : Fields :=
  setA fs k v

/-- `hasattr(instance, name)` restricted to model fields. -/
def hasField (fs : Fields) (k : String) : Bool :=
  (lookupA fs k).isSome

/-- A strategy context: the caller context dict extended by the executor
(`field`, flattened metadata, ...).  Only primitive-valued entries are
modelled; the `rule` and `profile` entries the executor also injects are
objects no built-in strategy reads and are omitted. -/
abbrev SCtx := List (String × Value)

/-- `strategies.prefer_target`: keep the target value unless it is empty. -/
def prefer_target (targetValue donorValue : Value) (_ctx : SCtx) : Value :=
  if isEmptyVal targetValue then donorValue else targetValue

/-- `strategies.prefer_donor`: always take the donor value. -/
def prefer_donor (_targetValue donorValue : Value) (_ctx : SCtx) : Value :=
  donorValue

/-- `strategies.prefer_non_null`: pick the first non-empty value among
target/donor. -/
def prefer_non_null (targetValue donorValue : Value) (_ctx : SCtx) : Value :=
  if ¬ isEmptyVal targetValue then targetValue else donorValue

/-- `strategies.concat`: if either side is empty return the other,
otherwise join with `context.get('separator', ' ')` under f-string
conversion. -/
def concat (targetValue donorValue : Value) (ctx : SCtx) : Value :=
  if isEmptyVal targetValue then donorValue
  else if isEmptyVal donorValue then targetValue
  else
    let separator := match lookupA ctx "separator" with
      | some v => valToStr v
      | none => " "
    .vstr (valToStr targetValue ++ separator ++ valToStr donorValue)

/-- `config.FieldMergeRule`, with the strategy already resolved to a
callable (rule resolution is configuration, not merge logic). -/
structure FieldMergeRule where
  strategy : Value → Value → SCtx → Value
  allowOverride : Bool := true
  metadata : List (String × Value) := []

/-- The `strategy_context` built in `MergeService._apply_field_updates`:
the base context with `field` set, and (when the rule has metadata) each
metadata key `setdefault`-ed in.  The non-primitive `rule` and `metadata`
dict entries are omitted (no modelled strategy reads them). -/
def mkStrategyCtx (base : SCtx) (fieldName : String) (rule : FieldMergeRule) : SCtx :=
  let c1 := setA base "field" (.vstr fieldName)
  if rule.metadata.isEmpty then c1
  else rule.metadata.foldl (fun c kv => setDefaultA c kv.1 kv.2) c1

/-- One entry of `MergeResult.changed_fields`:
`{'from': ..., 'to': ..., 'source': ..., 'donor': ...}`. -/
structure ChangeEntry where
  fromVal : Value
  toVal : Value
  source : String
  donor : Value
  deriving DecidableEq, Repr

/-- The per-field value resolution of `_apply_field_updates`: an override
wins unconditionally (`source = 'override'`), otherwise the rule's
strategy is invoked (`source = 'strategy'`). -/
def resolveFieldValue (fieldName : String) (rule : FieldMergeRule) (targetValue donorValue : Value)
    (overrides : List (String × Value)) (ctx : SCtx) : Value × String :=
  match lookupA overrides fieldName with
  | some v => (v, "override")
  | none => (rule.strategy targetValue donorValue (mkStrategyCtx ctx fieldName rule), "strategy")

/-- The field loop of `MergeService._apply_field_updates` over the
profile's field rules, in dict-iteration order.  Returns the recorded
changes, the final in-memory target fields and the staged
`update_fields` list.  In dry-run the target is neither mutated nor
staged; the change entries are recorded either way. -/
def applyFieldUpdates : List (String × FieldMergeRule) → Fields → Fields →
    List (String × Value) → Bool → SCtx →
    List (String × ChangeEntry) × Fields × List String
  | [], t, _, _, _, _ => ([], t, [])
  | (fieldName, rule) :: rest, t, d, overrides, dryRun, ctx =>
    let targetValue := getF t fieldName
    let donorValue := getF d fieldName
    let nv := resolveFieldValue fieldName rule targetValue donorValue overrides ctx
    if nv.1 = targetValue then
      applyFieldUpdates rest t d overrides dryRun ctx
    else
      let t2 := if dryRun then t else setF t fieldName nv.1
      let r := applyFieldUpdates rest t2 d overrides dryRun ctx
      ((fieldName, ⟨serializeValue targetValue, serializeValue nv.1, nv.2,
          serializeValue donorValue⟩) :: r.1,
       r.2.1,
       if dryRun then r.2.2 else fieldName :: r.2.2)

/-- Metadata of a direct many-to-many field on the donor's model
(`donor._meta.many_to_many`): the field name, the identity of its join
("through") table, and the related model label. -/
structure M2MFieldMeta where
  name : String
  through : String
  relatedModel : String
  deriving DecidableEq, Repr

/-- An auto-created, non-concrete relation on the donor's model
(`donor._meta.get_fields()`): a reverse many-to-many (with its through
table) or a reverse foreign key (one-to-many) whose `field.name` is the
foreign-key column on the related model. -/
inductive ReverseRel where
  | m2m (accessor : String) (through : String) (relatedModel : String) : ReverseRel
  | oneToMany (accessor : String) (fkName : String) (relatedModel : String) : ReverseRel
  deriving DecidableEq, Repr

/-- The accessor name of a reverse relation (`relation.get_accessor_name()`). -/
def ReverseRel.accessorName : ReverseRel → String
  | .m2m a _ _ => a
  | .oneToMany a _ _ => a

/-- The through table of a reverse relation, when it is a many-to-many. -/
def ReverseRel.throughOf : ReverseRel → Option String
  | .m2m _ th _ => some th
  | .oneToMany _ _ _ => none

/-- The accessor of a reverse relation, when it is a one-to-many. -/
def ReverseRel.fkAccessorOf : ReverseRel → Option String
  | .m2m _ _ _ => none
  | .oneToMany a _ _ => some a

/-- The relationship schema of the profile's entity model, as Django
introspection presents it to `_transfer_relations`. -/
structure EntityMeta where
  manyToMany : List M2MFieldMeta
  reverseRels : List ReverseRel
  deriving DecidableEq, Repr

/-- The relational store visible to the merge: the rows of the profile's
entity table keyed by primary key, each many-to-many join table as a list
of link pairs (for a forward relation the profile's entity is the first
component; for a reverse relation it is the second), and, per reverse
one-to-many accessor, the related records' primary key paired with the
entity primary key their foreign key currently points at. -/
structure Store where
  rows : List (Nat × Fields)
  links : List (String × List (Nat × Nat))
  fks : List (String × List (Nat × Nat))
  deriving DecidableEq, Repr

/-- Lookup of a row by primary key; `[]` when absent. -/
def rowOf (st : Store) (pk : Nat) : Fields :=
  (lookupA st.rows pk).getD []

/-- Whether a row with the given primary key exists in the store. -/
def rowExists (st : Store) (pk : Nat) : Bool :=
  (lookupA st.rows pk).isSome

/-- `instance.save(update_fields=flds)`: persist exactly the listed
fields of the in-memory instance onto the stored row, leaving every other
stored field untouched (a partial-field write). -/
def saveRow (st : Store) (pk : Nat) (mem : Fields) (flds : List String) : Store :=
  let newRow := flds.foldl (fun r f => setF r f (getF mem f)) (rowOf st pk)
  { st with rows := setA st.rows pk newRow }

/-- `donor.delete()`: remove the row from the entity table. -/
def deleteRow (st : Store) (pk : Nat) : Store :=
  { st with rows := removeA st.rows pk }

/-- The link rows of a join table. -/
def lookupLinks (st : Store) (through : String) : List (Nat × Nat) :=
  (lookupA st.links through).getD []

/-- Replace the link rows of a join table. -/
def setLinks (st : Store) (through : String) (ls : List (Nat × Nat)) : Store :=
  { st with links := setA st.links through ls }

/-- The foreign-key column state of a reverse one-to-many accessor. -/
def lookupFks (st : Store) (accessor : String) : List (Nat × Nat) :=
  (lookupA st.fks accessor).getD []

/-- Replace the foreign-key column state of a reverse one-to-many accessor. -/
def setFks (st : Store) (accessor : String) (ls : List (Nat × Nat)) : Store :=
  { st with fks := setA st.fks accessor ls }

/-- A durable write operation issued against the store or the audit sink. -/
inductive WriteOp where
  | saveFields (pk : Nat) (flds : List String) : WriteOp
  | m2mAdd (through : String) (pk : Nat) (pks : List Nat) : WriteOp
  | m2mRemove (through : String) (pk : Nat) (pks : List Nat) : WriteOp
  | fkBulkUpdate (accessor : String) (fromPk toPk : Nat) : WriteOp
  | deleteOp (pk : Nat) : WriteOp
  | auditCreate (status : String) (dryRun : Bool) (message : String) : WriteOp
  deriving DecidableEq, Repr

/-- A traced event: a durable write, or the invocation of an (external,
opaque) pre- or post-merge hook callable. -/
inductive Event where
  | write (op : WriteOp) : Event
  | hookPre (i : Nat) : Event
  | hookPost (i : Nat) : Event
  deriving DecidableEq, Repr

/-- The write operations of a trace. -/
def writesOf (evs : List Event) : List WriteOp :=
  evs.filterMap (fun e => match e with
    | .write w => some w
    | .hookPre _ => none
    | .hookPost _ => none)

/-- The join table named by an `m2mAdd` write, if any. -/
def addThroughOf : WriteOp → Option String
  | .m2mAdd th _ _ => some th
  | _ => none

/-- One entry of `MergeResult.relations`:
`{'type': ..., 'count': ..., 'related_model': ...}`. -/
structure RelInfo where
  relType : String
  count : Nat
  relatedModel : String
  deriving DecidableEq, Repr

/-- Django m2m `manager.add(*pks)`: insert each missing link; existing
links are left alone (no duplicates). `mk` orients the link pair. -/
def addLinksBy (ls : List (Nat × Nat)) (mk : Nat → Nat × Nat) (pks : List Nat) : List (Nat × Nat) :=
  pks.foldl (fun acc r => if mk r ∈ acc then acc else acc ++ [mk r]) ls

/-- The forward many-to-many pass of `_transfer_relations`: enumerate
`donor._meta.many_to_many` in order, record a `many_to_many` entry per
field, move the donor's links to the target when not in dry-run, and
accumulate every through table into `processed_through`. -/
def transferForward : List M2MFieldMeta → Store → Nat → Nat → Bool →
    List (String × RelInfo) × Store × List Event × List String
  | [], st, _, _, _ => ([], st, [], [])
  | f :: rest, st, targetPk, donorPk, dryRun =>
    let ls := lookupLinks st f.through
    let relatedPks := (ls.filter (fun pr => pr.1 = donorPk)).map (fun pr => pr.2)
    let info := (f.name, RelInfo.mk "many_to_many" relatedPks.length f.relatedModel)
    let step : Store × List Event :=
      if ¬ dryRun ∧ ¬ relatedPks.isEmpty then
        let ls1 := addLinksBy ls (fun r => (targetPk, r)) relatedPks
        let ls2 := ls1.filter (fun pr => ¬ (pr.1 = donorPk ∧ pr.2 ∈ relatedPks))
        (setLinks st f.through ls2,
         [.write (.m2mAdd f.through targetPk relatedPks),
          .write (.m2mRemove f.through donorPk relatedPks)])
      else (st, [])
    let r := transferForward rest step.1 targetPk donorPk dryRun
    (info :: r.1, r.2.1, step.2 ++ r.2.2.1, f.through :: r.2.2.2)

/-- The auto-created-relations pass of `_transfer_relations`: reverse
many-to-many relations whose through table is already in
`processed_through` are skipped; otherwise their links are moved (donor
side replaced by target side) and the through table marked processed;
reverse one-to-many relations are counted and bulk re-pointed. -/
def transferReverse : List ReverseRel → List String → Store → Nat → Nat → Bool →
    List (String × RelInfo) × Store × List Event
  | [], _, st, _, _, _ => ([], st, [])
  | .m2m accessor through relatedModel :: rest, processed, st, targetPk, donorPk, dryRun =>
    if through ∈ processed then
      transferReverse rest processed st targetPk donorPk dryRun
    else
      let ls := lookupLinks st through
      let relatedPks := (ls.filter (fun pr => pr.2 = donorPk)).map (fun pr => pr.1)
      let info := (accessor, RelInfo.mk "many_to_many_reverse" relatedPks.length relatedModel)
      let step : Store × List Event :=
        if ¬ dryRun ∧ ¬ relatedPks.isEmpty then
          let ls1 := addLinksBy ls (fun r => (r, targetPk)) relatedPks
          let ls2 := ls1.filter (fun pr => ¬ (pr.2 = donorPk ∧ pr.1 ∈ relatedPks))
          (setLinks st through ls2,
           [.write (.m2mAdd through targetPk relatedPks),
            .write (.m2mRemove through donorPk relatedPks)])
        else (st, [])
      let r := transferReverse rest (processed ++ [through]) step.1 targetPk donorPk dryRun
      (info :: r.1, r.2.1, step.2 ++ r.2.2)
  | .oneToMany accessor _fkName relatedModel :: rest, processed, st, targetPk, donorPk, dryRun =>
    let entries := lookupFks st accessor
    let count := (entries.filter (fun e => e.2 = donorPk)).length
    let info := (accessor, RelInfo.mk "one_to_many" count relatedModel)
    let step : Store × List Event :=
      if ¬ dryRun ∧ ¬ count = 0 then
        (setFks st accessor (entries.map (fun e => if e.2 = donorPk then (e.1, targetPk) else e)),
         [.write (.fkBulkUpdate accessor donorPk targetPk)])
      else (st, [])
    let r := transferReverse rest processed step.1 targetPk donorPk dryRun
    (info :: r.1, r.2.1, step.2 ++ r.2.2)

/-- `MergeService._transfer_relations`: the forward pass followed by the
auto-created pass, with the forward through tables pre-seeding the
dedup set. -/
def transferRelations (meta : EntityMeta) (st : Store) (targetPk donorPk : Nat) (dryRun : Bool) :
    List (String × RelInfo) × Store × List Event :=
  let fwd := transferForward meta.manyToMany st targetPk donorPk dryRun
  let rev := transferReverse meta.reverseRels fwd.2.2.2 fwd.2.1 targetPk donorPk dryRun
  (fwd.1 ++ rev.1, rev.2.1, fwd.2.2.1 ++ rev.2.2)

/-- The subset of `settings.DEFAULTS` / `MERGE_MANAGER_SETTINGS` the merge
path reads; defaults as in `src/settings.py`.  `AUDIT_MODEL` is modelled
as the flag "an audit model is configured". -/
structure Settings where
  SOFT_DELETE_FIELD : Option String := some "is_active"
  SOFT_DELETE_VALUE : Value := .vbool false
  DRY_RUN_DEFAULT : Bool := false
  AUDIT_MODEL : Bool := true

/-- `config.MergeProfile` restricted to what the merge path reads; hooks
are external callables, modelled only by how many there are (their
invocations appear in the event trace). -/
structure MergeProfile where
  label : String
  model : String
  fields : List (String × FieldMergeRule)
  softDeleteField : Option String := none
  softDeleteValue : Value := .vnull
  hardDelete : Bool := false
  preHooks : Nat := 0
  postHooks : Nat := 0

/-- `MergeProfile.get_soft_delete_field`: the profile's value if set
(`is not None`), else the settings value. -/
def resolvedSoftDeleteField (p : MergeProfile) (s : Settings) : Option String :=
  match p.softDeleteField with
  | some f => some f
  | none => s.SOFT_DELETE_FIELD

/-- `MergeProfile.get_soft_delete_value`: the profile's value if set
(`is not None`, i.e. not `vnull`), else the settings value. -/
def resolvedSoftDeleteValue (p : MergeProfile) (s : Settings) : Value :=
  if p.softDeleteValue = .vnull then s.SOFT_DELETE_VALUE else p.softDeleteValue

/-- `MergeService._apply_soft_delete` on the in-memory donor instance:
returns the soft-delete section, the updated store and the write trace.
A falsy resolved field name (unset or empty) disables soft-delete; a
field absent from the donor reports `field_missing`; otherwise the
section carries the from/to values and, when not in dry-run, the donor's
flag field is written through a single-field save. -/
def applySoftDelete (s : Settings) (p : MergeProfile) (donorMem : Fields) (st : Store)
    (donorPk : Nat) (dryRun : Bool) : List (String × Value) × Store × List Event :=
  match resolvedSoftDeleteField p s with
  | none => ([("applied", .vbool false), ("reason", .vstr "soft_delete_disabled")], st, [])
  | some fieldName =>
    if fieldName = "" then
      ([("applied", .vbool false), ("reason", .vstr "soft_delete_disabled")], st, [])
    else if ¬ hasField donorMem fieldName then
      ([("applied", .vbool false), ("reason", .vstr "field_missing"),
        ("field", .vstr fieldName)], st, [])
    else
      let previousValue := getF donorMem fieldName
      let newValue := resolvedSoftDeleteValue p s
      let info : List (String × Value) :=
        [("applied", .vbool true), ("field", .vstr fieldName),
         ("from", serializeValue previousValue), ("to", serializeValue newValue),
         ("dry_run", .vbool dryRun)]
      if dryRun then (info, st, [])
      else
        (info, saveRow st donorPk (setF donorMem fieldName newValue) [fieldName],
         [.write (.saveFields donorPk [fieldName])])

/-- The field-reconciliation phase of `_execute`: run
`_apply_field_updates` on the in-memory instances and, when not in
dry-run and at least one field was staged, persist the target with
exactly the staged field set (`target.save(update_fields=...)`). -/
def fieldPhase (p : MergeProfile) (st : Store) (targetPk donorPk : Nat)
    (overrides : List (String × Value)) (dryRun : Bool) (ctx : SCtx) :
    List (String × ChangeEntry) × Store × List Event :=
  let fu := applyFieldUpdates p.fields (rowOf st targetPk) (rowOf st donorPk) overrides dryRun ctx
  if ¬ dryRun ∧ ¬ fu.2.2.isEmpty then
    (fu.1, saveRow st targetPk fu.2.1 fu.2.2, [.write (.saveFields targetPk fu.2.2)])
  else (fu.1, st, [])

/-- The outcome of `MergeService._execute`: the sections it stores on the
`MergeResult`, the final store, and the event trace. -/
structure ExecOut where
  changedFields : List (String × ChangeEntry)
  relations : List (String × RelInfo)
  softDelete : List (String × Value)
  hardDelete : List (String × Value)
  store : Store
  events : List Event
  deriving Repr

/-- `MergeService._execute`: pre-hooks, field reconciliation (with its
conditional partial-field save), relationship transfer, donor retirement
(soft-delete skipped entirely when `hard_delete` is enabled), post-hooks,
then the physical donor delete when hard delete is enabled and not in
dry-run, with the `pk` key recording the donor's prior primary key.  The
in-memory target and donor instances are the stored rows as loaded by the
caller; hook callables are external and traced but modelled as not
touching the store. -/
def executeModel (s : Settings) (p : MergeProfile) (meta : EntityMeta) (st : Store)
    (targetPk donorPk : Nat) (dryRun : Bool) (overrides : List (String × Value))
    (ctx : SCtx) : ExecOut :=
  let donorMem := rowOf st donorPk
  let preEvents := (List.range p.preHooks).map Event.hookPre
  let fp := fieldPhase p st targetPk donorPk overrides dryRun ctx
  let changes := fp.1
  let rel := transferRelations meta fp.2.1 targetPk donorPk dryRun
  let soft : List (String × Value) × Store × List Event :=
    if p.hardDelete then
      ([("applied", .vbool false), ("reason", .vstr "hard_delete_enabled"),
        ("dry_run", .vbool dryRun)], rel.2.1, [])
    else applySoftDelete s p donorMem rel.2.1 donorPk dryRun
  let postEvents := (List.range p.postHooks).map Event.hookPost
  let hard : List (String × Value) × Store × List Event :=
    if p.hardDelete then
      let base : List (String × Value) :=
        [("enabled", .vbool true), ("applied", .vbool false), ("dry_run", .vbool dryRun)]
      if ¬ dryRun then
        (setA (setA base "applied" (.vbool true)) "pk" (.vstr (toString donorPk)),
         deleteRow soft.2.1 donorPk, [.write (.deleteOp donorPk)])
      else (base, soft.2.1, [])
    else
      ([("enabled", .vbool false), ("applied", .vbool false), ("dry_run", .vbool dryRun)],
       soft.2.1, [])
  { changedFields := changes
    relations := rel.1
    softDelete := soft.1
    hardDelete := hard.1
    store := hard.2.1
    events := preEvents ++ fp.2.2 ++ rel.2.2 ++ soft.2.2 ++ postEvents ++ hard.2.2 }

/-- An in-memory model instance as handed to `MergeService.merge`: its
primary key and the names of the classes in its type's method resolution
order (so `isinstance(x, C)` is membership of `C`). -/
structure Inst where
  pk : Nat
  classes : List String
  deriving DecidableEq, Repr

/-- The errors `merge` can raise before executing. -/
inductive MergeError where
  | validation (msg : String) : MergeError
  deriving DecidableEq, Repr

/-- `MergeService._validate_instances`: both instances must be
`isinstance` of the profile's model class; the target is checked first. -/
def validateInstances (p : MergeProfile) (target donor : Inst) : Option MergeError :=
  if ¬ (p.model ∈ target.classes) then
    some (.validation ("Target instance must be " ++ p.model ++ ", got " ++
      (target.classes.headD "object")))
  else if ¬ (p.model ∈ donor.classes) then
    some (.validation ("Donor instance must be " ++ p.model ++ ", got " ++
      (donor.classes.headD "object")))
  else none

/-- `MergeService.merge` along its non-raising execution path: resolve the
dry-run default, validate the instances (before the result object, the
transaction and any write), run `_execute`, finalize the status and append
the audit-record creation (when an audit model is configured).  On a
validation failure the store is returned untouched with an empty event
trace.  The non-primitive `profile` entry added to the base context is
omitted; the `dry_run` entry is set as in the source. -/
def mergeModel (s : Settings) (p : MergeProfile) (meta : EntityMeta) (st : Store)
    (target donor : Inst) (dryRunOpt : Option Bool) (overrides : List (String × Value))
    (ctx : SCtx) : Except MergeError (ExecOut × String) × Store × List Event :=
  let dryRun := dryRunOpt.getD s.DRY_RUN_DEFAULT
  let baseCtx := setA ctx "dry_run" (.vbool dryRun)
  match validateInstances p target donor with
  | some e => (.error e, st, [])
  | none =>
    let out := executeModel s p meta st target.pk donor.pk dryRun overrides baseCtx
    let status := if dryRun then "dry_run" else "completed"
    let evs := if s.AUDIT_MODEL then
        out.events ++ [.write (.auditCreate status dryRun "")]
      else out.events
    (.ok (out, status), out.store, evs)

/-- The exception-path control flow of `MergeService.merge` (lines 75-89):
given the outcome of the guarded `_execute` call and the behaviour of
`_write_audit` as a function of the status and message it is called with,
return what `merge` raises or returns, together with the list of
`(status, message)` audit attempts made.  On an `_execute` exception the
result's status becomes `failed` and its message the error text, the
audit write is attempted with exactly those, and then: the original
exception is re-raised if the audit write returned, but an exception
from the audit write itself propagates in its place (the source wraps
the audit call in no handler). -/
def mergeControl (dryRun : Bool) (execOutcome : Except String Unit)
    (audit : String → String → Except String Nat) :
    Except String (String × Nat) × List (String × String) :=
  match execOutcome with
  | .error e =>
    (match audit "failed" e with
     | .error e2 => .error e2
     | .ok _ => .error e, [("failed", e)])
  | .ok _ =>
    let status := if dryRun then "dry_run" else "completed"
    (match audit status "" with
     | .error e2 => .error e2
     | .ok n => .ok (status, n), [(status, "")])

/-- A registered profile as the registry indexes it: its label and the
identity of its bound model class. -/
structure RegProfile where
  label : String
  model : String
  deriving DecidableEq, Repr

/-- The registry's errors. -/
inductive RegError where
  | invalidProfile (msg : String) : RegError
  | profileNotFound (msg : String) : RegError
  deriving DecidableEq, Repr

/-- `config.MergeProfileRegistry`: the label index and the model-class
index. -/
structure Registry where
  profiles : List (String × RegProfile)
  modelIndex : List (String × RegProfile)
  deriving DecidableEq, Repr

/-- The freshly constructed registry. -/
def Registry.empty : Registry := ⟨[], []⟩

/-- `MergeProfileRegistry.register`: an empty label is rejected;
otherwise the profile is stored under its label and under its model
class (overwriting either index entry). -/
def Registry.register (r : Registry) (p : RegProfile) : Except RegError Registry :=
  if p.label = "" then .error (.invalidProfile "Merge profile must define a label")
  else .ok ⟨setA r.profiles p.label p, setA r.modelIndex p.model p⟩

/-- `MergeProfileRegistry.unregister`: pop the label; when a profile was
stored there, also pop its model class from the model index —
unconditionally, even if the model-index entry now belongs to a different
profile registered later for the same model. -/
def Registry.unregister (r : Registry) (label : String) : Registry :=
  match lookupA r.profiles label with
  | none => r
  | some p => ⟨removeA r.profiles label, removeA r.modelIndex p.model⟩

/-- `MergeProfileRegistry.get`. -/
def Registry.get (r : Registry) (label : String) : Except RegError RegProfile :=
  match lookupA r.profiles label with
  | some p => .ok p
  | none => .error (.profileNotFound ("Merge profile '" ++ label ++ "' is not registered"))

/-- `MergeProfileRegistry.get_for_model`. -/
def Registry.getForModel (r : Registry) (model : String) : Except RegError RegProfile :=
  match lookupA r.modelIndex model with
  | some p => .ok p
  | none => .error (.profileNotFound ("No merge profile registered for model " ++ model))

/-- A concrete profile mirroring the repository's own test fixture
(`tests.py`): a City model with `prefer_target` / `prefer_non_null` /
`prefer_donor` rules. -/
def cityProfile : MergeProfile :=
  { label := "city", model := "City",
    fields := [("name", ⟨prefer_target, true, []⟩), ("code", ⟨prefer_non_null, true, []⟩),
               ("population", ⟨prefer_donor, true, []⟩)] }

/-- The same profile with `hard_delete=True`. -/
def cityHardProfile : MergeProfile :=
  { cityProfile with label := "city-hard-delete", hardDelete := true }

/-- The City model's relationship schema: a forward m2m `tags` (through
`City_tags`), its auto-created reverse `cities` on the same join table,
and a reverse FK `offices`. -/
def cityMeta : EntityMeta :=
  { manyToMany := [⟨"tags", "City_tags", "Tag"⟩],
    reverseRels := [.m2m "cities" "City_tags" "City",
                    .oneToMany "offices" "city" "Office"] }

/-- A concrete store: target city 1, donor city 2, one tag link each, one
office pointing at the donor. -/
def cityStore : Store :=
  { rows := [(1, [("name", .vstr "Target"), ("code", .vstr ""), ("population", .vint 100),
                  ("is_active", .vbool true)]),
             (2, [("name", .vstr "Donor"), ("code", .vstr "DN"), ("population", .vint 250),
                  ("is_active", .vbool true)])],
    links := [("City_tags", [(1, 10), (2, 11)])],
    fks := [("offices", [(20, 2)])] }

/-- The in-memory target instance for the concrete store. -/
def targetInst : Inst := ⟨1, ["City"]⟩

/-- The in-memory donor instance for the concrete store. -/
def donorInst : Inst := ⟨2, ["City"]⟩

/-- An instance of an unrelated model class. -/
def wrongInst : Inst := ⟨3, ["Office"]⟩

/-- Profile "a" bound to model class "M" (registry scenarios). -/
def regA : RegProfile := ⟨"a", "M"⟩

/-- Profile "b" bound to the same model class "M". -/
def regB : RegProfile := ⟨"b", "M"⟩

/-- The registry after registering `regA` into the empty registry. -/
def regW1 : Registry := ⟨[("a", regA)], [("M", regA)]⟩

/-- The registry after additionally registering `regB`. -/
def regW2 : Registry := ⟨[("a", regA), ("b", regB)], [("M", regB)]⟩

/-! ### Basic lemmas about the dict embedding -/

theorem serializeValue_id (v : Value) : serializeValue v = v := by
  cases v <;> rfl

theorem lookupA_nil {κ α : Type} [DecidableEq κ] (k : κ) : lookupA ([] : List (κ × α)) k = none := rfl

theorem lookupA_cons {κ α : Type} [DecidableEq κ] (a : κ × α) (l : List (κ × α)) (k : κ) :
    lookupA (a :: l) k = if a.1 = k then some a.2 else lookupA l k := by
  by_cases h : a.1 = k
  · simp [lookupA, List.find?_cons_of_pos, h]
  · simp [lookupA, List.find?_cons_of_neg, h]

theorem lookupA_append {κ α : Type} [DecidableEq κ] (l₁ l₂ : List (κ × α)) (k : κ) :
    lookupA (l₁ ++ l₂) k = (lookupA l₁ k).or (lookupA l₂ k) := by
  simp only [lookupA, List.find?_append]
  cases List.find? (fun kv => kv.1 = k) l₁ <;> simp

theorem lookupA_map_replace {κ α : Type} [DecidableEq κ] (l : List (κ × α)) (k : κ) (v : α) :
    lookupA (l.map (fun kv => if kv.1 = k then (k, v) else kv)) k =
      if (l.find? (fun kv => kv.1 = k)).isSome then some v else none := by
  induction l with
  | nil => rfl
  | cons a l ih =>
    by_cases h : a.1 = k
    · simp [h, lookupA_cons, List.find?_cons_of_pos (p := fun kv => kv.1 = k) l (by simpa using h)]
    · simp only [List.map_cons, if_neg h, lookupA_cons, if_neg h, ih,
        List.find?_cons_of_neg (p := fun kv => kv.1 = k) l (by simpa using h)]

theorem lookupA_map_replace_ne {κ α : Type} [DecidableEq κ] (l : List (κ × α)) (k k' : κ) (v : α)
    (h : k' ≠ k) :
    lookupA (l.map (fun kv => if kv.1 = k then (k, v) else kv)) k' = lookupA l k' := by
  induction l with
  | nil => rfl
  | cons a l ih =>
    by_cases ha : a.1 = k
    · have : ¬ (k = k') := fun hk => h hk.symm
      simp [ha, lookupA_cons, this, ih]
    · simp [ha, lookupA_cons, ih]

theorem lookupA_setA_self {κ α : Type} [DecidableEq κ] (l : List (κ × α)) (k : κ) (v : α) :
    lookupA (setA l k v) k = some v := by
  unfold setA
  by_cases h : (l.find? (fun kv => kv.1 = k)).isSome
  · simp [h, lookupA_map_replace]
  · have hnone : lookupA l k = none := by
      unfold lookupA
      cases hfnd : l.find? (fun kv => kv.1 = k) with
      | none => rfl
      | some x => simp [hfnd] at h
    simp [h, lookupA_append, hnone, lookupA_cons]

theorem lookupA_setA_ne {κ α : Type} [DecidableEq κ] (l : List (κ × α)) (k k' : κ) (v : α)
    (h : k' ≠ k) : lookupA (setA l k v) k' = lookupA l k' := by
  unfold setA
  by_cases hs : (l.find? (fun kv => kv.1 = k)).isSome
  · simp [hs, lookupA_map_replace_ne l k k' v h]
  · have : ¬ (k = k') := fun hk => h hk.symm
    simp [hs, lookupA_append, lookupA_cons, this, lookupA_nil, Option.or_none]

theorem getF_setF_self (fs : Fields) (k : String) (v : Value) :
    getF (setF fs k v) k = v := by
  simp [getF, setF, lookupA_setA_self]

theorem getF_setF_ne (fs : Fields) (k k' : String) (v : Value) (h : k' ≠ k) :
    getF (setF fs k v) k' = getF fs k' := by
  simp [getF, setF, lookupA_setA_ne fs k k' v h]

theorem lookupA_removeA_self {κ α : Type} [DecidableEq κ] (l : List (κ × α)) (k : κ) :
    lookupA (removeA l k) k = none := by
  have h : (removeA l k).find? (fun kv => kv.1 = k) = none := by
    rw [List.find?_eq_none]
    intro kv hkv
    simp only [removeA, List.mem_filter] at hkv
    simpa using hkv.2
  simp [lookupA, h]

theorem lookupA_removeA_ne {κ α : Type} [DecidableEq κ] (l : List (κ × α)) (k k' : κ) (h : k' ≠ k) :
    lookupA (removeA l k) k' = lookupA l k' := by
  induction l with
  | nil => rfl
  | cons a l ih =>
    by_cases ha : a.1 = k
    · have ha' : ¬ (a.1 = k') := by
        rw [ha]; exact fun hk => h hk.symm
      have hstep : removeA (a :: l) k = removeA l k := by
        simp [removeA, List.filter_cons, ha]
      rw [hstep, ih, lookupA_cons, if_neg ha']
    · have hstep : removeA (a :: l) k = a :: removeA l k := by
        simp [removeA, List.filter_cons, ha]
      rw [hstep, lookupA_cons, lookupA_cons, ih]

theorem getF_foldl_setF_not_mem (flds : List String) (mem r0 : Fields) (f : String)
    (h : f ∉ flds) :
    getF (flds.foldl (fun r g => setF r g (getF mem g)) r0) f = getF r0 f := by
  induction flds generalizing r0 with
  | nil => rfl
  | cons g rest ih =>
    have hf : f ≠ g := fun hfg => h (hfg ▸ List.mem_cons_self g rest)
    have hrest : f ∉ rest := fun hr => h (List.mem_cons_of_mem g hr)
    simp only [List.foldl_cons]
    rw [ih _ hrest, getF_setF_ne _ _ _ _ hf]

theorem getF_foldl_setF_mem (flds : List String) (mem r0 : Fields) (f : String)
    (h : f ∈ flds) :
    getF (flds.foldl (fun r g => setF r g (getF mem g)) r0) f = getF mem f := by
  induction flds generalizing r0 with
  | nil => exact absurd h (List.not_mem_nil f)
  | cons g rest ih =>
    simp only [List.foldl_cons]
    by_cases hr : f ∈ rest
    · exact ih _ hr
    · have hfg : f = g := by
        rcases List.mem_cons.mp h with h1 | h1
        · exact h1
        · exact absurd h1 hr
      subst hfg
      rw [getF_foldl_setF_not_mem _ _ _ _ hr, getF_setF_self]

theorem lookupA_eq_none_of_not_mem {κ α : Type} [DecidableEq κ] (l : List (κ × α)) (k : κ)
    (h : k ∉ l.map Prod.fst) : lookupA l k = none := by
  have hf : l.find? (fun kv => kv.1 = k) = none := by
    rw [List.find?_eq_none]
    intro kv hkv hk
    exact h (by
      simp only [decide_eq_true_eq] at hk
      exact hk ▸ List.mem_map_of_mem Prod.fst hkv)
  simp [lookupA, hf]

/-! ### Lemmas about the field-reconciliation pass -/

theorem applyFieldUpdates_dry (fields : List (String × FieldMergeRule)) (t d : Fields)
    (ov : List (String × Value)) (ctx : SCtx) :
    (applyFieldUpdates fields t d ov true ctx).2.1 = t ∧
      (applyFieldUpdates fields t d ov true ctx).2.2 = [] := by
  induction fields generalizing t with
  | nil => exact ⟨rfl, rfl⟩
  | cons fr rest ih =>
    obtain ⟨fieldName, rule⟩ := fr
    simp only [applyFieldUpdates]
    by_cases h : (resolveFieldValue fieldName rule (getF t fieldName) (getF d fieldName) ov ctx).1
        = getF t fieldName
    · simpa [h] using ih t
    · simpa [h] using ih t

theorem applyFieldUpdates_real_updateFields (fields : List (String × FieldMergeRule))
    (t d : Fields) (ov : List (String × Value)) (ctx : SCtx) :
    (applyFieldUpdates fields t d ov false ctx).2.2 =
      ((applyFieldUpdates fields t d ov false ctx).1).map Prod.fst := by
  induction fields generalizing t with
  | nil => rfl
  | cons fr rest ih =>
    obtain ⟨fieldName, rule⟩ := fr
    simp only [applyFieldUpdates]
    by_cases h : (resolveFieldValue fieldName rule (getF t fieldName) (getF d fieldName) ov ctx).1
        = getF t fieldName
    · simpa [h] using ih t
    · simpa [h] using ih (setF t fieldName
        (resolveFieldValue fieldName rule (getF t fieldName) (getF d fieldName) ov ctx).1)

theorem applyFieldUpdates_keys_subset (fields : List (String × FieldMergeRule)) (t d : Fields)
    (ov : List (String × Value)) (dry : Bool) (ctx : SCtx) :
    ∀ x ∈ ((applyFieldUpdates fields t d ov dry ctx).1).map Prod.fst,
      x ∈ fields.map Prod.fst := by
  induction fields generalizing t with
  | nil =>
    intro x hx
    simp [applyFieldUpdates] at hx
  | cons fr rest ih =>
    obtain ⟨fieldName, rule⟩ := fr
    intro x hx
    simp only [applyFieldUpdates] at hx
    by_cases h : (resolveFieldValue fieldName rule (getF t fieldName) (getF d fieldName) ov ctx).1
        = getF t fieldName
    · simp only [h, if_true] at hx
      exact List.mem_cons_of_mem _ (ih t x hx)
    · simp only [h, if_false] at hx
      rcases List.mem_map.mp hx with ⟨kv, hkv, hkx⟩
      rcases List.mem_cons.mp hkv with h1 | h1
      · have hxf : x = fieldName := by rw [← hkx, h1]
        simp [hxf]
      · refine List.mem_cons_of_mem _ (ih (if dry = true then t
          else setF t fieldName (resolveFieldValue fieldName rule (getF t fieldName)
            (getF d fieldName) ov ctx).1) x ?_)
        rw [← hkx]
        exact List.mem_map_of_mem Prod.fst h1

theorem applyFieldUpdates_mem_unchanged (fields : List (String × FieldMergeRule)) (t d : Fields)
    (ov : List (String × Value)) (dry : Bool) (ctx : SCtx) (f : String)
    (h : f ∉ fields.map Prod.fst) :
    getF (applyFieldUpdates fields t d ov dry ctx).2.1 f = getF t f := by
  induction fields generalizing t with
  | nil => rfl
  | cons fr rest ih =>
    obtain ⟨fieldName, rule⟩ := fr
    have hne : f ≠ fieldName := by
      intro hf
      exact h (by simp [hf])
    have hrest : f ∉ rest.map Prod.fst := by
      intro hf
      exact h (List.mem_cons_of_mem _ hf)
    simp only [applyFieldUpdates]
    by_cases hh : (resolveFieldValue fieldName rule (getF t fieldName) (getF d fieldName) ov ctx).1
        = getF t fieldName
    · simpa [hh] using ih t hrest
    · by_cases hdry : dry = true
      · simpa [hh, hdry] using ih t hrest
      · have hdry' : dry = false := by
          cases dry
          · rfl
          · exact absurd rfl hdry
        subst hdry'
        have hrec := ih (setF t fieldName
          (resolveFieldValue fieldName rule (getF t fieldName) (getF d fieldName) ov ctx).1) hrest
        simpa [hh, getF_setF_ne _ _ _ _ hne] using hrec

theorem applyFieldUpdates_changes_congr (fields : List (String × FieldMergeRule))
    (t t' d : Fields) (ov : List (String × Value)) (ctx : SCtx)
    (hnd : (fields.map Prod.fst).Nodup)
    (hagree : ∀ fn ∈ fields.map Prod.fst, getF t' fn = getF t fn) :
    (applyFieldUpdates fields t' d ov false ctx).1 =
      (applyFieldUpdates fields t d ov true ctx).1 := by
  induction fields generalizing t t' with
  | nil => rfl
  | cons fr rest ih =>
    obtain ⟨fieldName, rule⟩ := fr
    have hhead : getF t' fieldName = getF t fieldName :=
      hagree fieldName (by simp)
    have hnd' : (rest.map Prod.fst).Nodup := (List.nodup_cons.mp hnd).2
    have hnotmem : fieldName ∉ rest.map Prod.fst := (List.nodup_cons.mp hnd).1
    have hrest : ∀ fn ∈ rest.map Prod.fst, getF t' fn = getF t fn := by
      intro fn hfn
      exact hagree fn (List.mem_cons_of_mem _ hfn)
    simp only [applyFieldUpdates, hhead]
    by_cases h : (resolveFieldValue fieldName rule (getF t fieldName) (getF d fieldName) ov ctx).1
        = getF t fieldName
    · simp only [h, if_true]
      exact ih t t' hnd' hrest
    · simp only [h, if_false]
      have hrest2 : ∀ fn ∈ rest.map Prod.fst,
          getF (setF t' fieldName
            (resolveFieldValue fieldName rule (getF t fieldName) (getF d fieldName) ov ctx).1) fn
            = getF t fn := by
        intro fn hfn
        have hne : fn ≠ fieldName := fun hf => hnotmem (hf ▸ hfn)
        rw [getF_setF_ne _ _ _ _ hne]
        exact hrest fn hfn
      have hrec := ih t (setF t' fieldName
        (resolveFieldValue fieldName rule (getF t fieldName) (getF d fieldName) ov ctx).1)
        hnd' hrest2
      simp [hrec]

theorem applyFieldUpdates_final_mem (fields : List (String × FieldMergeRule)) (t d : Fields)
    (ov : List (String × Value)) (ctx : SCtx) (fn : String) (ce : ChangeEntry)
    (hnd : (fields.map Prod.fst).Nodup)
    (hmem : (fn, ce) ∈ (applyFieldUpdates fields t d ov false ctx).1) :
    getF (applyFieldUpdates fields t d ov false ctx).2.1 fn = ce.toVal := by
  induction fields generalizing t with
  | nil => simp [applyFieldUpdates] at hmem
  | cons fr rest ih =>
    obtain ⟨fieldName, rule⟩ := fr
    have hnd' : (rest.map Prod.fst).Nodup := (List.nodup_cons.mp hnd).2
    have hnotmem : fieldName ∉ rest.map Prod.fst := (List.nodup_cons.mp hnd).1
    simp only [applyFieldUpdates] at hmem ⊢
    by_cases h : (resolveFieldValue fieldName rule (getF t fieldName) (getF d fieldName) ov ctx).1
        = getF t fieldName
    · simp only [h, if_true] at hmem ⊢
      exact ih t hnd' hmem
    · simp only [h, if_false, Bool.false_eq_true] at hmem ⊢
      rcases List.mem_cons.mp hmem with h1 | h1
      · have hfn : fn = fieldName := congrArg Prod.fst h1
        have hce : ce = ⟨serializeValue (getF t fieldName),
            serializeValue (resolveFieldValue fieldName rule (getF t fieldName) (getF d fieldName)
              ov ctx).1,
            (resolveFieldValue fieldName rule (getF t fieldName) (getF d fieldName) ov ctx).2,
            serializeValue (getF d fieldName)⟩ := congrArg Prod.snd h1
        subst hfn
        rw [applyFieldUpdates_mem_unchanged rest _ d ov false ctx fn hnotmem,
          getF_setF_self, hce]
        simp [serializeValue_id]
      · exact ih (setF t fieldName
          (resolveFieldValue fieldName rule (getF t fieldName) (getF d fieldName) ov ctx).1)
          hnd' h1

theorem applyFieldUpdates_lookup (fields : List (String × FieldMergeRule)) (t d : Fields)
    (ov : List (String × Value)) (dry : Bool) (ctx : SCtx) (fieldName : String)
    (rule : FieldMergeRule)
    (hnd : (fields.map Prod.fst).Nodup) (hmem : (fieldName, rule) ∈ fields) :
    lookupA (applyFieldUpdates fields t d ov dry ctx).1 fieldName =
      (if (resolveFieldValue fieldName rule (getF t fieldName) (getF d fieldName) ov ctx).1
          = getF t fieldName then none
       else some ⟨serializeValue (getF t fieldName),
          serializeValue (resolveFieldValue fieldName rule (getF t fieldName) (getF d fieldName)
            ov ctx).1,
          (resolveFieldValue fieldName rule (getF t fieldName) (getF d fieldName) ov ctx).2,
          serializeValue (getF d fieldName)⟩) := by
  induction fields generalizing t with
  | nil => simp at hmem
  | cons fr rest ih =>
    obtain ⟨gn, grule⟩ := fr
    have hnd' : (rest.map Prod.fst).Nodup := (List.nodup_cons.mp hnd).2
    have hnotmem : gn ∉ rest.map Prod.fst := (List.nodup_cons.mp hnd).1
    by_cases hg : gn = fieldName
    · subst hg
      have hrule : grule = rule := by
        rcases List.mem_cons.mp hmem with h1 | h1
        · exact (Prod.mk.injEq _ _ _ _ ▸ h1.symm).2
        · exact absurd (List.mem_map_of_mem Prod.fst h1) hnotmem
      subst hrule
      simp only [applyFieldUpdates]
      by_cases h : (resolveFieldValue gn grule (getF t gn) (getF d gn) ov ctx).1 = getF t gn
      · simp only [h, if_true]
        refine lookupA_eq_none_of_not_mem _ _ (fun hc => ?_)
        exact hnotmem (applyFieldUpdates_keys_subset rest t d ov dry ctx gn hc)
      · simp [h, lookupA_cons]
    · have hmem' : (fieldName, rule) ∈ rest := by
        rcases List.mem_cons.mp hmem with h1 | h1
        · exact absurd (congrArg Prod.fst h1).symm hg
        · exact h1
      simp only [applyFieldUpdates]
      by_cases h : (resolveFieldValue gn grule (getF t gn) (getF d gn) ov ctx).1 = getF t gn
      · simp only [h, if_true]
        exact ih t hnd' hmem'
      · simp only [h, if_false, lookupA_cons]
        rw [if_neg hg]
        by_cases hdry : dry = true
        · subst hdry
          simpa using ih t hnd' hmem'
        · have hdry' : dry = false := by
            cases dry
            · rfl
            · exact absurd rfl hdry
          subst hdry'
          have hpres : getF (setF t gn (resolveFieldValue gn grule (getF t gn) (getF d gn)
              ov ctx).1) fieldName = getF t fieldName :=
            getF_setF_ne _ _ _ _ (fun hf => hg hf.symm)
          simpa [hpres] using ih (setF t gn
            (resolveFieldValue gn grule (getF t gn) (getF d gn) ov ctx).1) hnd' hmem'

/-! ### Lemmas about the relationship-transfer pass -/

theorem lookupLinks_saveRow (st : Store) (pk : Nat) (mem : Fields) (flds : List String)
    (th : String) : lookupLinks (saveRow st pk mem flds) th = lookupLinks st th := rfl

theorem lookupFks_saveRow (st : Store) (pk : Nat) (mem : Fields) (flds : List String)
    (a : String) : lookupFks (saveRow st pk mem flds) a = lookupFks st a := rfl

theorem lookupLinks_setFks (st : Store) (a : String) (ls : List (Nat × Nat)) (th : String) :
    lookupLinks (setFks st a ls) th = lookupLinks st th := rfl

theorem lookupFks_setLinks (st : Store) (th : String) (ls : List (Nat × Nat)) (a : String) :
    lookupFks (setLinks st th ls) a = lookupFks st a := rfl

theorem lookupLinks_setLinks_ne (st : Store) (th th' : String) (ls : List (Nat × Nat))
    (h : th' ≠ th) : lookupLinks (setLinks st th ls) th' = lookupLinks st th' := by
  simp [lookupLinks, setLinks, lookupA_setA_ne _ _ _ _ h]

theorem lookupFks_setFks_ne (st : Store) (a a' : String) (ls : List (Nat × Nat))
    (h : a' ≠ a) : lookupFks (setFks st a ls) a' = lookupFks st a' := by
  simp [lookupFks, setFks, lookupA_setA_ne _ _ _ _ h]

theorem writesOf_append (l₁ l₂ : List Event) :
    writesOf (l₁ ++ l₂) = writesOf l₁ ++ writesOf l₂ := by
  simp [writesOf, List.filterMap_append]

theorem transferForward_processed (l : List M2MFieldMeta) (st : Store) (t d : Nat)
    (dry : Bool) :
    (transferForward l st t d dry).2.2.2 = l.map (fun f => f.through) := by
  induction l generalizing st with
  | nil => rfl
  | cons f rest ih =>
    simp only [transferForward, List.map_cons]
    by_cases h : ¬ dry = true ∧
        ¬ (((lookupLinks st f.through).filter (fun pr => pr.1 = d)).map
          (fun pr => pr.2)).isEmpty = true
    · rw [if_pos h, ih]
    · rw [if_neg h, ih]

theorem transferForward_keys (l : List M2MFieldMeta) (st : Store) (t d : Nat) (dry : Bool) :
    (transferForward l st t d dry).1.map Prod.fst = l.map (fun f => f.name) := by
  induction l generalizing st with
  | nil => rfl
  | cons f rest ih =>
    simp only [transferForward, List.map_cons]
    by_cases h : ¬ dry = true ∧
        ¬ (((lookupLinks st f.through).filter (fun pr => pr.1 = d)).map
          (fun pr => pr.2)).isEmpty = true
    · rw [if_pos h]
      simp only [List.map_cons, ih]
    · rw [if_neg h]
      simp only [List.map_cons, ih]

theorem transferForward_dry (l : List M2MFieldMeta) (st : Store) (t d : Nat) :
    (transferForward l st t d true).2.1 = st ∧ (transferForward l st t d true).2.2.1 = [] := by
  induction l generalizing st with
  | nil => exact ⟨rfl, rfl⟩
  | cons f rest ih =>
    simp only [transferForward]
    split
    · next hcond => exact absurd trivial hcond.1
    · refine ⟨(ih st).1, ?_⟩
      simpa using (ih st).2

theorem transferForward_links_outside (l : List M2MFieldMeta) (st : Store) (t d : Nat)
    (dry : Bool) (th : String) (h : th ∉ l.map (fun f => f.through)) :
    lookupLinks (transferForward l st t d dry).2.1 th = lookupLinks st th := by
  induction l generalizing st with
  | nil => rfl
  | cons f rest ih =>
    have hne : th ≠ f.through := by
      intro hth
      exact h (by simp [hth])
    have hrest : th ∉ rest.map (fun f => f.through) := by
      intro hth
      exact h (List.mem_cons_of_mem _ hth)
    simp only [transferForward]
    by_cases hc : ¬ dry = true ∧
        ¬ (((lookupLinks st f.through).filter (fun pr => pr.1 = d)).map
          (fun pr => pr.2)).isEmpty = true
    · rw [if_pos hc, ih _ hrest, lookupLinks_setLinks_ne _ _ _ _ hne]
    · rw [if_neg hc]
      exact ih st hrest

theorem transferForward_fks (l : List M2MFieldMeta) (st : Store) (t d : Nat) (dry : Bool)
    (a : String) : lookupFks (transferForward l st t d dry).2.1 a = lookupFks st a := by
  induction l generalizing st with
  | nil => rfl
  | cons f rest ih =>
    simp only [transferForward]
    by_cases hc : ¬ dry = true ∧
        ¬ (((lookupLinks st f.through).filter (fun pr => pr.1 = d)).map
          (fun pr => pr.2)).isEmpty = true
    · rw [if_pos hc, ih, lookupFks_setLinks]
    · rw [if_neg hc]
      exact ih st

theorem transferForward_congr (l : List M2MFieldMeta) (st st' : Store) (t d : Nat)
    (hnd : (l.map (fun f => f.through)).Nodup)
    (hag : ∀ f ∈ l, lookupLinks st' f.through = lookupLinks st f.through) :
    (transferForward l st' t d false).1 = (transferForward l st t d true).1 := by
  induction l generalizing st st' with
  | nil => rfl
  | cons f rest ih =>
    have hhead : lookupLinks st' f.through = lookupLinks st f.through :=
      hag f (List.mem_cons_self f rest)
    have hnd' : (rest.map (fun f => f.through)).Nodup := (List.nodup_cons.mp hnd).2
    have hnotmem : f.through ∉ rest.map (fun f => f.through) := (List.nodup_cons.mp hnd).1
    simp only [transferForward, hhead]
    split
    · next hc =>
      split
      · next hc2 => exact absurd trivial hc2.1
      · refine congrArg (List.cons _) (ih _ _ hnd' ?_)
        intro g hg
        have hgne : g.through ≠ f.through := by
          intro hgth
          exact hnotmem (hgth ▸ List.mem_map_of_mem (fun f => f.through) hg)
        rw [lookupLinks_setLinks_ne _ _ _ _ hgne]
        exact hag g (List.mem_cons_of_mem _ hg)
    · next hc =>
      split
      · next hc2 => exact absurd trivial hc2.1
      · refine congrArg (List.cons _) (ih _ _ hnd' ?_)
        intro g hg
        exact hag g (List.mem_cons_of_mem _ hg)

theorem transferForward_addThroughs (l : List M2MFieldMeta) (st : Store) (t d : Nat)
    (dry : Bool) :
    ((writesOf (transferForward l st t d dry).2.2.1).filterMap addThroughOf).Sublist
      (l.map (fun f => f.through)) := by
  induction l generalizing st with
  | nil => simp [transferForward, writesOf]
  | cons f rest ih =>
    simp only [transferForward]
    by_cases hc : ¬ dry = true ∧
        ¬ (((lookupLinks st f.through).filter (fun pr => pr.1 = d)).map
          (fun pr => pr.2)).isEmpty = true
    · rw [if_pos hc]
      simp only [writesOf_append, List.filterMap_append, List.map_cons]
      exact List.Sublist.cons₂ f.through (ih _)
    · rw [if_neg hc]
      simp only [List.map_cons]
      exact List.Sublist.cons f.through (ih st)

theorem transferReverse_dry (l : List ReverseRel) (processed : List String) (st : Store)
    (t d : Nat) :
    (transferReverse l processed st t d true).2.1 = st ∧
      (transferReverse l processed st t d true).2.2 = [] := by
  induction l generalizing processed st with
  | nil => exact ⟨rfl, rfl⟩
  | cons r rest ih =>
    cases r with
    | m2m accessor through relatedModel =>
      simp only [transferReverse]
      by_cases hp : through ∈ processed
      · rw [if_pos hp]
        exact ih processed st
      · rw [if_neg hp]
        split
        · next hcond => exact absurd trivial hcond.1
        · refine ⟨(ih (processed ++ [through]) st).1, ?_⟩
          simpa using (ih (processed ++ [through]) st).2
    | oneToMany accessor fkName relatedModel =>
      simp only [transferReverse]
      split
      · next hcond => exact absurd trivial hcond.1
      · refine ⟨(ih processed st).1, ?_⟩
        simpa using (ih processed st).2

theorem transferReverse_keys_sublist (l : List ReverseRel) (processed : List String)
    (st : Store) (t d : Nat) (dry : Bool) :
    ((transferReverse l processed st t d dry).1.map Prod.fst).Sublist
      (l.map ReverseRel.accessorName) := by
  induction l generalizing processed st with
  | nil => simp [transferReverse]
  | cons r rest ih =>
    cases r with
    | m2m accessor through relatedModel =>
      simp only [transferReverse, List.map_cons]
      by_cases hp : through ∈ processed
      · rw [if_pos hp]
        exact List.Sublist.cons _ (ih processed st)
      · rw [if_neg hp]
        simp only [List.map_cons]
        exact List.Sublist.cons₂ _ (ih (processed ++ [through]) _)
    | oneToMany accessor fkName relatedModel =>
      simp only [transferReverse, List.map_cons]
      exact List.Sublist.cons₂ _ (ih processed _)

theorem transferReverse_skip_not_key (l : List ReverseRel) (processed : List String)
    (st : Store) (t d : Nat) (dry : Bool) (acc th rm : String)
    (hmem : ReverseRel.m2m acc th rm ∈ l) (hth : th ∈ processed)
    (hnames : (l.map ReverseRel.accessorName).Nodup) :
    acc ∉ (transferReverse l processed st t d dry).1.map Prod.fst := by
  induction l generalizing processed st with
  | nil => exact absurd hmem (List.not_mem_nil _)
  | cons r rest ih =>
    have hnd' : (rest.map ReverseRel.accessorName).Nodup := (List.nodup_cons.mp hnames).2
    have hhdnot : r.accessorName ∉ rest.map ReverseRel.accessorName :=
      (List.nodup_cons.mp hnames).1
    cases r with
    | m2m a2 th2 rm2 =>
      rcases List.mem_cons.mp hmem with h1 | h1
      · have ha : a2 = acc := by
          have := congrArg ReverseRel.accessorName h1
          simpa [ReverseRel.accessorName] using this.symm
        have hth2 : th2 = th := by
          have := congrArg ReverseRel.throughOf h1
          simpa [ReverseRel.throughOf] using this.symm
        subst ha
        subst hth2
        simp only [transferReverse]
        rw [if_pos hth]
        intro hc
        have hsub := transferReverse_keys_sublist rest processed st t d dry
        have : a2 ∈ rest.map ReverseRel.accessorName := hsub.mem hc
        exact absurd this (by simpa [ReverseRel.accessorName] using hhdnot)
      · have hacc : acc ∈ rest.map ReverseRel.accessorName := by
          have := List.mem_map_of_mem ReverseRel.accessorName h1
          simpa [ReverseRel.accessorName] using this
        have hane : acc ≠ a2 := by
          intro hc
          exact hhdnot (by simpa [ReverseRel.accessorName, hc] using hacc)
        simp only [transferReverse]
        by_cases hp : th2 ∈ processed
        · rw [if_pos hp]
          exact ih processed st h1 hth hnd'
        · rw [if_neg hp]
          simp only [List.map_cons, List.mem_cons, not_or]
          refine ⟨hane, ?_⟩
          exact ih (processed ++ [th2]) _ h1 (List.mem_append_left _ hth) hnd'
    | oneToMany a2 fk2 rm2 =>
      have h1 : ReverseRel.m2m acc th rm ∈ rest := by
        rcases List.mem_cons.mp hmem with h1 | h1
        · exact absurd h1 (by simp)
        · exact h1
      have hacc : acc ∈ rest.map ReverseRel.accessorName := by
        have := List.mem_map_of_mem ReverseRel.accessorName h1
        simpa [ReverseRel.accessorName] using this
      have hane : acc ≠ a2 := by
        intro hc
        exact hhdnot (by simpa [ReverseRel.accessorName, hc] using hacc)
      simp only [transferReverse, List.map_cons, List.mem_cons, not_or]
      refine ⟨hane, ?_⟩
      exact ih processed _ h1 hth hnd'

theorem transferReverse_congr (l : List ReverseRel) (processed : List String)
    (st st' : Store) (t d : Nat)
    (hfk : (l.filterMap ReverseRel.fkAccessorOf).Nodup)
    (hlinks : ∀ th, th ∉ processed → lookupLinks st' th = lookupLinks st th)
    (hfks : ∀ a ∈ l.filterMap ReverseRel.fkAccessorOf, lookupFks st' a = lookupFks st a) :
    (transferReverse l processed st' t d false).1 =
      (transferReverse l processed st t d true).1 := by
  induction l generalizing processed st st' with
  | nil => rfl
  | cons r rest ih =>
    cases r with
    | m2m accessor through relatedModel =>
      have hfk' : (rest.filterMap ReverseRel.fkAccessorOf).Nodup := by
        simpa [List.filterMap_cons, ReverseRel.fkAccessorOf] using hfk
      have hfks' : ∀ a ∈ rest.filterMap ReverseRel.fkAccessorOf,
          lookupFks st' a = lookupFks st a := by
        intro a ha
        refine hfks a ?_
        simpa [List.filterMap_cons, ReverseRel.fkAccessorOf] using ha
      simp only [transferReverse]
      by_cases hp : through ∈ processed
      · rw [if_pos hp, if_pos hp]
        exact ih processed st st' hfk' hlinks hfks'
      · rw [if_neg hp, if_neg hp]
        have hl := hlinks through hp
        simp only [hl]
        split
        · next hc =>
          split
          · next hc2 => exact absurd trivial hc2.1
          · refine congrArg (List.cons _) (ih (processed ++ [through]) st _ hfk' ?_ ?_)
            · intro th2 hth2
              have hne : th2 ≠ through := by
                intro hcth
                refine hth2 ?_
                rw [hcth]
                exact List.mem_append_right _ (List.mem_singleton_self through)
              have hnp : th2 ∉ processed := fun hcp => hth2 (List.mem_append_left _ hcp)
              rw [lookupLinks_setLinks_ne _ _ _ _ hne]
              exact hlinks th2 hnp
            · intro a ha
              rw [lookupFks_setLinks]
              exact hfks' a ha
        · next hc =>
          split
          · next hc2 => exact absurd trivial hc2.1
          · refine congrArg (List.cons _) (ih (processed ++ [through]) st st' hfk' ?_ hfks')
            intro th2 hth2
            exact hlinks th2 (fun hcp => hth2 (List.mem_append_left _ hcp))
    | oneToMany accessor fkName relatedModel =>
      have hfkcons : (ReverseRel.oneToMany accessor fkName relatedModel :: rest).filterMap
          ReverseRel.fkAccessorOf = accessor :: rest.filterMap ReverseRel.fkAccessorOf := by
        simp [List.filterMap_cons, ReverseRel.fkAccessorOf]
      have hfk' : (rest.filterMap ReverseRel.fkAccessorOf).Nodup := by
        rw [hfkcons] at hfk
        exact (List.nodup_cons.mp hfk).2
      have haccnot : accessor ∉ rest.filterMap ReverseRel.fkAccessorOf := by
        rw [hfkcons] at hfk
        exact (List.nodup_cons.mp hfk).1
      have hacc : lookupFks st' accessor = lookupFks st accessor := by
        refine hfks accessor ?_
        rw [hfkcons]
        exact List.mem_cons_self _ _
      simp only [transferReverse, hacc]
      split
      · next hc =>
        split
        · next hc2 => exact absurd trivial hc2.1
        · refine congrArg (List.cons _) (ih processed st _ hfk' ?_ ?_)
          · intro th2 hth2
            rw [lookupLinks_setFks]
            exact hlinks th2 hth2
          · intro a ha
            have hane : a ≠ accessor := fun hceq => haccnot (hceq ▸ ha)
            rw [lookupFks_setFks_ne _ _ _ _ hane]
            refine hfks a ?_
            rw [hfkcons]
            exact List.mem_cons_of_mem _ ha
      · next hc =>
        split
        · next hc2 => exact absurd trivial hc2.1
        · refine congrArg (List.cons _) (ih processed st st' hfk' hlinks ?_)
          intro a ha
          refine hfks a ?_
          rw [hfkcons]
          exact List.mem_cons_of_mem _ ha

theorem transferReverse_addThroughs (l : List ReverseRel) (processed : List String)
    (st : Store) (t d : Nat) (dry : Bool) :
    ((writesOf (transferReverse l processed st t d dry).2.2).filterMap addThroughOf).Nodup ∧
    ∀ th ∈ (writesOf (transferReverse l processed st t d dry).2.2).filterMap addThroughOf,
      th ∉ processed := by
  induction l generalizing processed st with
  | nil =>
    constructor
    · simp [transferReverse, writesOf]
    · intro th hth
      simp [transferReverse, writesOf] at hth
  | cons r rest ih =>
    cases r with
    | m2m accessor through relatedModel =>
      simp only [transferReverse]
      by_cases hp : through ∈ processed
      · rw [if_pos hp]
        exact ih processed st
      · rw [if_neg hp]
        split
        · next hc =>
          simp only [writesOf_append, List.filterMap_append]
          have hstep : (writesOf [Event.write (WriteOp.m2mAdd through t
              (((lookupLinks st through).filter (fun pr => pr.2 = d)).map (fun pr => pr.1))),
              Event.write (WriteOp.m2mRemove through d
              (((lookupLinks st through).filter (fun pr => pr.2 = d)).map
                (fun pr => pr.1)))]).filterMap addThroughOf = [through] := rfl
          rw [hstep]
          obtain ⟨hnodupR, hmemR⟩ := ih (processed ++ [through]) _
          constructor
          · refine List.Nodup.append (List.nodup_singleton through) hnodupR ?_
            intro x hx hx2
            have hxth : x = through := List.mem_singleton.mp hx
            refine hmemR x hx2 ?_
            rw [hxth]
            exact List.mem_append_right _ (List.mem_singleton_self through)
          · intro x hx
            rcases List.mem_append.mp hx with h1 | h1
            · exact (List.mem_singleton.mp h1) ▸ hp
            · exact fun hcp => hmemR x h1 (List.mem_append_left _ hcp)
        · next hc =>
          obtain ⟨hnodupR, hmemR⟩ := ih (processed ++ [through]) st
          refine ⟨by simpa using hnodupR, ?_⟩
          intro x hx
          have hx' := hmemR x (by simpa using hx)
          exact fun hcp => hx' (List.mem_append_left _ hcp)
    | oneToMany accessor fkName relatedModel =>
      simp only [transferReverse]
      split
      · next hc =>
        simp only [writesOf_append, List.filterMap_append]
        have hstep : (writesOf [Event.write (WriteOp.fkBulkUpdate accessor d t)]).filterMap
            addThroughOf = [] := rfl
        rw [hstep]
        simpa using ih processed _
      · next hc =>
        obtain ⟨hnodupR, hmemR⟩ := ih processed st
        refine ⟨by simpa using hnodupR, ?_⟩
        intro x hx
        exact hmemR x (by simpa using hx)

/-! ### Mid-level lemmas about the merge phases -/

theorem rowOf_saveRow_self (st : Store) (pk : Nat) (mem : Fields) (flds : List String) :
    rowOf (saveRow st pk mem flds) pk =
      flds.foldl (fun r g => setF r g (getF mem g)) (rowOf st pk) := by
  simp [rowOf, saveRow, lookupA_setA_self]

theorem rowOf_saveRow_ne (st : Store) (pk pk' : Nat) (mem : Fields) (flds : List String)
    (h : pk' ≠ pk) : rowOf (saveRow st pk mem flds) pk' = rowOf st pk' := by
  simp [rowOf, saveRow, lookupA_setA_ne _ _ _ _ h]

theorem rowExists_deleteRow (st : Store) (pk : Nat) :
    rowExists (deleteRow st pk) pk = false := by
  simp [rowExists, deleteRow, lookupA_removeA_self]

theorem fieldPhase_changes (p : MergeProfile) (st : Store) (t d : Nat)
    (ov : List (String × Value)) (dry : Bool) (ctx : SCtx) :
    (fieldPhase p st t d ov dry ctx).1 =
      (applyFieldUpdates p.fields (rowOf st t) (rowOf st d) ov dry ctx).1 := by
  simp only [fieldPhase]
  split <;> rfl

theorem fieldPhase_dry (p : MergeProfile) (st : Store) (t d : Nat)
    (ov : List (String × Value)) (ctx : SCtx) :
    (fieldPhase p st t d ov true ctx).2.1 = st ∧
      (fieldPhase p st t d ov true ctx).2.2 = [] := by
  simp only [fieldPhase]
  split
  · next hc => exact absurd trivial hc.1
  · exact ⟨rfl, rfl⟩

theorem fieldPhase_links (p : MergeProfile) (st : Store) (t d : Nat)
    (ov : List (String × Value)) (dry : Bool) (ctx : SCtx) (th : String) :
    lookupLinks (fieldPhase p st t d ov dry ctx).2.1 th = lookupLinks st th := by
  simp only [fieldPhase]
  split
  · exact lookupLinks_saveRow _ _ _ _ _
  · rfl

theorem fieldPhase_fks (p : MergeProfile) (st : Store) (t d : Nat)
    (ov : List (String × Value)) (dry : Bool) (ctx : SCtx) (a : String) :
    lookupFks (fieldPhase p st t d ov dry ctx).2.1 a = lookupFks st a := by
  simp only [fieldPhase]
  split
  · exact lookupFks_saveRow _ _ _ _ _
  · rfl

theorem transferRelations_dry (meta : EntityMeta) (st : Store) (t d : Nat) :
    (transferRelations meta st t d true).2.1 = st ∧
      (transferRelations meta st t d true).2.2 = [] := by
  simp only [transferRelations]
  obtain ⟨h1, h2⟩ := transferForward_dry meta.manyToMany st t d
  obtain ⟨h3, h4⟩ := transferReverse_dry meta.reverseRels
    (transferForward meta.manyToMany st t d true).2.2.2
    (transferForward meta.manyToMany st t d true).2.1 t d
  constructor
  · rw [h3, h1]
  · rw [h4, h2]
    rfl

/-- The accessor names of the one-to-many relations form a sub-sequence of
all reverse accessor names. -/
theorem fkAccessors_sublist (l : List ReverseRel) :
    (l.filterMap ReverseRel.fkAccessorOf).Sublist (l.map ReverseRel.accessorName) := by
  induction l with
  | nil => simp
  | cons r rest ih =>
    cases r with
    | m2m a th rm =>
      simp only [List.filterMap_cons, ReverseRel.fkAccessorOf, List.map_cons]
      exact List.Sublist.cons _ ih
    | oneToMany a fk rm =>
      simp only [List.filterMap_cons, ReverseRel.fkAccessorOf, List.map_cons]
      exact List.Sublist.cons₂ _ ih

theorem transferRelations_congr (meta : EntityMeta) (st st' : Store) (t d : Nat)
    (hth : (meta.manyToMany.map (fun f => f.through)).Nodup)
    (hfk : (meta.reverseRels.filterMap ReverseRel.fkAccessorOf).Nodup)
    (hlinks : ∀ th, lookupLinks st' th = lookupLinks st th)
    (hfksA : ∀ a, lookupFks st' a = lookupFks st a) :
    (transferRelations meta st' t d false).1 = (transferRelations meta st t d true).1 := by
  simp only [transferRelations]
  have hfwd : (transferForward meta.manyToMany st' t d false).1 =
      (transferForward meta.manyToMany st t d true).1 :=
    transferForward_congr meta.manyToMany st st' t d hth (fun f _ => hlinks f.through)
  have hprocR : (transferForward meta.manyToMany st' t d false).2.2.2 =
      meta.manyToMany.map (fun f => f.through) := transferForward_processed _ _ _ _ _
  have hprocD : (transferForward meta.manyToMany st t d true).2.2.2 =
      meta.manyToMany.map (fun f => f.through) := transferForward_processed _ _ _ _ _
  have hdryStore : (transferForward meta.manyToMany st t d true).2.1 = st :=
    (transferForward_dry meta.manyToMany st t d).1
  have hrev : (transferReverse meta.reverseRels
      (transferForward meta.manyToMany st' t d false).2.2.2
      (transferForward meta.manyToMany st' t d false).2.1 t d false).1 =
      (transferReverse meta.reverseRels
      (transferForward meta.manyToMany st t d true).2.2.2
      (transferForward meta.manyToMany st t d true).2.1 t d true).1 := by
    rw [hprocR, hprocD, hdryStore]
    refine transferReverse_congr meta.reverseRels _ _ _ t d hfk ?_ ?_
    · intro th hthp
      rw [transferForward_links_outside meta.manyToMany st' t d false th hthp]
      exact hlinks th
    · intro a _
      rw [transferForward_fks meta.manyToMany st' t d false a]
      exact hfksA a
  rw [hfwd, hrev]

theorem applySoftDelete_dry (s : Settings) (p : MergeProfile) (dm : Fields) (st : Store)
    (dpk : Nat) :
    (applySoftDelete s p dm st dpk true).2.1 = st ∧
      (applySoftDelete s p dm st dpk true).2.2 = [] := by
  unfold applySoftDelete
  cases hf : resolvedSoftDeleteField p s with
  | none => exact ⟨rfl, rfl⟩
  | some f =>
    by_cases h1 : f = ""
    · simp [h1]
    · by_cases h2 : hasField dm f
      · simp [h1, h2]
      · simp [h1, h2]

/-- The soft-delete sections of a dry and a real run agree once the
`dry_run` flag entry is dropped; the store argument only receives writes
and does not influence the section. -/
theorem applySoftDelete_info_parity (s : Settings) (p : MergeProfile) (dm : Fields)
    (stA stB : Store) (dpk : Nat) :
    removeA (applySoftDelete s p dm stA dpk true).1 "dry_run" =
      removeA (applySoftDelete s p dm stB dpk false).1 "dry_run" := by
  unfold applySoftDelete
  cases hf : resolvedSoftDeleteField p s with
  | none => rfl
  | some f =>
    by_cases h1 : f = ""
    · simp [h1]
    · by_cases h2 : hasField dm f
      · simp only [h1, if_false, h2, Bool.not_true, if_true]
        rfl
      · simp [h1, h2]

theorem writesOf_hookEvents (l : List Nat) :
    writesOf (l.map Event.hookPre) = [] ∧ writesOf (l.map Event.hookPost) = [] := by
  induction l with
  | nil => exact ⟨rfl, rfl⟩
  | cons x rest ih =>
    constructor
    · simp only [List.map_cons, writesOf, List.filterMap_cons]
      exact ih.1
    · simp only [List.map_cons, writesOf, List.filterMap_cons]
      exact ih.2

/-- `_execute` in dry-run mode leaves the store untouched and issues no
write operation at all. -/
theorem executeModel_dry_noop (s : Settings) (p : MergeProfile) (meta : EntityMeta)
    (st : Store) (t d : Nat) (ov : List (String × Value)) (ctx : SCtx) :
    (executeModel s p meta st t d true ov ctx).store = st ∧
      writesOf (executeModel s p meta st t d true ov ctx).events = [] := by
  have hfp := fieldPhase_dry p st t d ov ctx
  have hrel := transferRelations_dry meta (fieldPhase p st t d ov true ctx).2.1 t d
  have hsoft := applySoftDelete_dry s p (rowOf st d)
    (transferRelations meta (fieldPhase p st t d ov true ctx).2.1 t d true).2.1 d
  have hhooks1 := (writesOf_hookEvents (List.range p.preHooks)).1
  have hhooks2 := (writesOf_hookEvents (List.range p.postHooks)).2
  by_cases hh : p.hardDelete = true
  · constructor
    · simp only [executeModel, hh, if_true]
      rw [hrel.1, hfp.1]
      simp
    · simp only [executeModel, hh, if_true, writesOf_append, hhooks1, hhooks2, hfp.2, hrel.2]
      simp [writesOf]
  · have hh' : p.hardDelete = false := by
      cases hp : p.hardDelete
      · rfl
      · exact absurd hp hh
    constructor
    · simp only [executeModel, hh', Bool.false_eq_true, if_false]
      rw [hsoft.1, hrel.1, hfp.1]
    · simp only [executeModel, hh', Bool.false_eq_true, if_false, writesOf_append,
        hhooks1, hhooks2, hfp.2, hrel.2, hsoft.2]
      simp [writesOf]

/-! ### Claim theorems -/

theorem isEmptyVal_iff (v : Value) : isEmptyVal v = true ↔ (v = .vnull ∨ v = .vstr "") := by
  cases v <;> simp [isEmptyVal]

/-- C5: the built-in strategies with "empty" meaning null or the empty
string: `prefer_target` keeps the target unless empty, `prefer_donor`
always returns the donor, `prefer_non_null` returns the first non-empty
value, and `concat` returns the other side when either is empty and
otherwise joins with `context.separator`, a single space by default (so
`concat("a","b") = "a b"`). -/
theorem builtin_strategies_spec (t d : Value) (ctx : SCtx) :
    ((t = .vnull ∨ t = .vstr "") → prefer_target t d ctx = d ∧ prefer_non_null t d ctx = d ∧
      concat t d ctx = d) ∧
    ((t ≠ .vnull ∧ t ≠ .vstr "") → prefer_target t d ctx = t ∧ prefer_non_null t d ctx = t) ∧
    prefer_donor t d ctx = d ∧
    ((t ≠ .vnull ∧ t ≠ .vstr "") → (d = .vnull ∨ d = .vstr "") → concat t d ctx = t) ∧
    ((t ≠ .vnull ∧ t ≠ .vstr "") → (d ≠ .vnull ∧ d ≠ .vstr "") →
      lookupA ctx "separator" = none →
      concat t d ctx = .vstr (valToStr t ++ " " ++ valToStr d)) ∧
    (∀ sep, (t ≠ .vnull ∧ t ≠ .vstr "") → (d ≠ .vnull ∧ d ≠ .vstr "") →
      lookupA ctx "separator" = some sep →
      concat t d ctx = .vstr (valToStr t ++ valToStr sep ++ valToStr d)) := by
  refine ⟨?_, ?_, rfl, ?_, ?_, ?_⟩
  · intro ht
    have hE : isEmptyVal t = true := (isEmptyVal_iff t).mpr ht
    exact ⟨by simp [prefer_target, hE], by simp [prefer_non_null, hE], by simp [concat, hE]⟩
  · intro ht
    have hE : ¬ isEmptyVal t = true := by
      intro hc
      rcases (isEmptyVal_iff t).mp hc with h | h
      · exact ht.1 h
      · exact ht.2 h
    exact ⟨by simp [prefer_target, hE], by simp [prefer_non_null, hE]⟩
  · intro ht hd
    have hEt : ¬ isEmptyVal t = true := by
      intro hc
      rcases (isEmptyVal_iff t).mp hc with h | h
      · exact ht.1 h
      · exact ht.2 h
    have hEd : isEmptyVal d = true := (isEmptyVal_iff d).mpr hd
    simp [concat, hEt, hEd]
  · intro ht hd hsep
    have hEt : ¬ isEmptyVal t = true := by
      intro hc
      rcases (isEmptyVal_iff t).mp hc with h | h
      · exact ht.1 h
      · exact ht.2 h
    have hEd : ¬ isEmptyVal d = true := by
      intro hc
      rcases (isEmptyVal_iff d).mp hc with h | h
      · exact hd.1 h
      · exact hd.2 h
    simp [concat, hEt, hEd, hsep]
  · intro sep ht hd hsep
    have hEt : ¬ isEmptyVal t = true := by
      intro hc
      rcases (isEmptyVal_iff t).mp hc with h | h
      · exact ht.1 h
      · exact ht.2 h
    have hEd : ¬ isEmptyVal d = true := by
      intro hc
      rcases (isEmptyVal_iff d).mp hc with h | h
      · exact hd.1 h
      · exact hd.2 h
    simp [concat, hEt, hEd, hsep]

/-- C5 witness: the strategies evaluated at the spec's concrete inputs,
obtained by instantiating `builtin_strategies_spec`. -/
theorem builtin_strategies_spec_witness :
    prefer_target (.vstr "a") (.vstr "b") [] = .vstr "a" ∧
    prefer_donor (.vstr "a") (.vstr "b") [] = .vstr "b" ∧
    concat (.vstr "") (.vstr "b") [] = .vstr "b" ∧
    concat (.vstr "a") (.vstr "") [] = .vstr "a" ∧
    concat (.vstr "a") (.vstr "b") [] = .vstr "a b" := by
  refine ⟨?_, ?_, ?_, ?_, ?_⟩
  · exact ((builtin_strategies_spec (.vstr "a") (.vstr "b") []).2.1 (by decide)).1
  · exact (builtin_strategies_spec (.vstr "a") (.vstr "b") []).2.2.1
  · exact ((builtin_strategies_spec (.vstr "") (.vstr "b") []).1 (by decide)).2.2
  · exact (builtin_strategies_spec (.vstr "a") (.vstr "") []).2.2.2.1 (by decide) (by decide)
  · exact (builtin_strategies_spec (.vstr "a") (.vstr "b") []).2.2.2.2.1 (by decide)
      (by decide) rfl

/-- C4: a `fieldOverrides` value always wins: for any rule (in particular
one with `allowOverride = false`) the resolved value is the override with
`source = 'override'` and the strategy is never consulted; when the
override differs from the current target value the recorded change entry
carries `source = 'override'`. -/
theorem field_overrides_win (fields : List (String × FieldMergeRule)) (t d : Fields)
    (ov : List (String × Value)) (dry : Bool) (ctx : SCtx) (fieldName : String)
    (rule : FieldMergeRule) (v : Value)
    (hnd : (fields.map Prod.fst).Nodup) (hmem : (fieldName, rule) ∈ fields)
    (hov : lookupA ov fieldName = some v) :
    (∀ rule' : FieldMergeRule, resolveFieldValue fieldName rule' (getF t fieldName)
      (getF d fieldName) ov ctx = (v, "override")) ∧
    (v ≠ getF t fieldName →
      lookupA (applyFieldUpdates fields t d ov dry ctx).1 fieldName =
        some ⟨getF t fieldName, v, "override", getF d fieldName⟩) := by
  constructor
  · intro rule'
    simp [resolveFieldValue, hov]
  · intro hne
    rw [applyFieldUpdates_lookup fields t d ov dry ctx fieldName rule hnd hmem]
    simp [resolveFieldValue, hov, hne, serializeValue_id]

/-- C4 witness: a rule with `allowOverride = false` whose strategy would
keep the target value, overridden anyway. -/
theorem field_overrides_win_witness :
    lookupA (applyFieldUpdates [("name", ⟨prefer_target, false, []⟩)]
      [("name", .vstr "T")] [("name", .vstr "D")] [("name", .vstr "O")] false []).1 "name" =
      some ⟨.vstr "T", .vstr "O", "override", .vstr "D"⟩ :=
  (field_overrides_win [("name", ⟨prefer_target, false, []⟩)] [("name", .vstr "T")]
    [("name", .vstr "D")] [("name", .vstr "O")] false [] "name" ⟨prefer_target, false, []⟩
    (.vstr "O") (by decide) (List.mem_singleton_self _) (by decide)).2 (by decide)

/-- C3 counterexample: when `_execute` fails with "boom" and the audit
write itself fails with "audit down", `merge` raises "audit down" — the
audit failure is not swallowed and replaces the original exception,
contradicting the claim. -/
theorem audit_failure_masks_original_exception :
    (mergeControl false (.error "boom") (fun _ _ => .error "audit down")).1 =
      .error "audit down" ∧
    ¬ (mergeControl false (.error "boom") (fun _ _ => .error "audit down")).1 =
      .error "boom" := by
  constructor
  · rfl
  · intro h
    have h2 : (Except.error "audit down" : Except String (String × Nat)) = .error "boom" := h
    have h3 : ("audit down" : String) = "boom" := Except.error.inj h2
    exact absurd h3 (by decide)

/-- C3 (amended): on an `_execute` exception the status is set to
`failed`, the error message recorded, the audit write attempted with that
status and message, and the original exception re-raised when the audit
write succeeds; but an audit-write failure is not caught: it propagates
in place of the original exception. -/
theorem merge_failure_audit_and_reraise (dry : Bool) (e : String)
    (audit : String → String → Except String Nat) :
    (mergeControl dry (.error e) audit).2 = [("failed", e)] ∧
    (∀ n, audit "failed" e = .ok n → (mergeControl dry (.error e) audit).1 = .error e) ∧
    (∀ e2, audit "failed" e = .error e2 →
      (mergeControl dry (.error e) audit).1 = .error e2) := by
  refine ⟨rfl, ?_, ?_⟩
  · intro n hn
    simp [mergeControl, hn]
  · intro e2 hn
    simp [mergeControl, hn]

/-- C3 witness: with a succeeding audit sink, the failed merge records one
`("failed", "boom")` audit attempt and re-raises "boom". -/
theorem merge_failure_audit_and_reraise_witness :
    (mergeControl false (.error "boom") (fun _ _ => .ok 7)).1 = .error "boom" ∧
    (mergeControl false (.error "boom") (fun _ _ => .ok 7)).2 = [("failed", "boom")] :=
  ⟨(merge_failure_audit_and_reraise false "boom" (fun _ _ => .ok 7)).2.1 7 rfl,
   (merge_failure_audit_and_reraise false "boom" (fun _ _ => .ok 7)).1⟩

/-- C10: registering two profiles with distinct labels for the same model
class and then unregistering the first also removes the model-index entry
that points at the second: the label lookup still succeeds but
`get_for_model` now raises `ProfileNotFoundError`. -/
theorem unregister_breaks_model_index (A B : RegProfile) (r1 r2 : Registry)
    (hlab : A.label ≠ B.label) (hmod : A.model = B.model)
    (h1 : Registry.register Registry.empty A = .ok r1)
    (h2 : Registry.register r1 B = .ok r2) :
    Registry.get (Registry.unregister r2 A.label) B.label = .ok B ∧
    Registry.getForModel (Registry.unregister r2 A.label) B.model =
      .error (.profileNotFound ("No merge profile registered for model " ++ B.model)) := by
  by_cases hA : A.label = ""
  · simp [Registry.register, hA] at h1
  · simp only [Registry.register, hA, if_false] at h1
    have hr1 : r1 = ⟨setA [] A.label A, setA [] A.model A⟩ := by
      cases h1
      rfl
    subst hr1
    by_cases hB : B.label = ""
    · simp [Registry.register, hB] at h2
    · simp only [Registry.register, hB, if_false] at h2
      have hr2 : r2 = ⟨setA (setA [] A.label A) B.label B,
          setA (setA [] A.model A) B.model B⟩ := by
        cases h2
        rfl
      subst hr2
      have hlook : lookupA (setA (setA ([] : List (String × RegProfile)) A.label A)
          B.label B) A.label = some A := by
        rw [lookupA_setA_ne _ _ _ _ hlab, lookupA_setA_self]
      constructor
      · simp only [Registry.unregister, hlook, Registry.get]
        have : lookupA (removeA (setA (setA ([] : List (String × RegProfile)) A.label A)
            B.label B) A.label) B.label = some B := by
          rw [lookupA_removeA_ne _ _ _ (fun hc => hlab hc.symm), lookupA_setA_self]
        rw [this]
      · simp only [Registry.unregister, hlook, Registry.getForModel]
        have : lookupA (removeA (setA (setA ([] : List (String × RegProfile)) A.model A)
            B.model B) A.model) B.model = none := by
          rw [hmod]
          exact lookupA_removeA_self _ _
        rw [this]

/-- C10 witness: the scenario with labels "a"/"b" over model "M". -/
theorem unregister_breaks_model_index_witness :
    Registry.get (Registry.unregister regW2 "a") "b" = .ok regB ∧
    Registry.getForModel (Registry.unregister regW2 "a") "M" =
      .error (.profileNotFound ("No merge profile registered for model " ++ "M")) :=
  unregister_breaks_model_index regA regB regW1 regW2 (by decide) rfl rfl rfl

/-- C2: a target or donor that is not an instance of the profile's model
class makes `merge` raise `MergeValidationError` before the result object
exists: the store is untouched and the event trace is empty — no store
write and no audit record, not even a failed one. -/
theorem validation_failure_no_writes (s : Settings) (p : MergeProfile) (meta : EntityMeta)
    (st : Store) (target donor : Inst) (dro : Option Bool) (ov : List (String × Value))
    (ctx : SCtx)
    (h : ¬ p.model ∈ target.classes ∨ ¬ p.model ∈ donor.classes) :
    (mergeModel s p meta st target donor dro ov ctx).2.1 = st ∧
    (mergeModel s p meta st target donor dro ov ctx).2.2 = [] ∧
    ∃ msg, (mergeModel s p meta st target donor dro ov ctx).1 = .error (.validation msg) := by
  by_cases hT : p.model ∈ target.classes
  · have hD : ¬ p.model ∈ donor.classes := by
      rcases h with h1 | h1
      · exact absurd hT h1
      · exact h1
    have hv : validateInstances p target donor = some (.validation
        ("Donor instance must be " ++ p.model ++ ", got " ++
          (donor.classes.headD "object"))) := by
      simp [validateInstances, hT, hD]
    exact ⟨by simp [mergeModel, hv], by simp [mergeModel, hv],
      ⟨"Donor instance must be " ++ p.model ++ ", got " ++ (donor.classes.headD "object"),
        by simp [mergeModel, hv]⟩⟩
  · have hv : validateInstances p target donor = some (.validation
        ("Target instance must be " ++ p.model ++ ", got " ++
          (target.classes.headD "object"))) := by
      simp [validateInstances, hT]
    exact ⟨by simp [mergeModel, hv], by simp [mergeModel, hv],
      ⟨"Target instance must be " ++ p.model ++ ", got " ++ (target.classes.headD "object"),
        by simp [mergeModel, hv]⟩⟩

/-- C2 witness: an Office instance passed as target of a City profile. -/
theorem validation_failure_no_writes_witness :
    (mergeModel {} cityProfile cityMeta cityStore wrongInst donorInst none [] []).2.1 =
      cityStore ∧
    (mergeModel {} cityProfile cityMeta cityStore wrongInst donorInst none [] []).2.2 = [] ∧
    ∃ msg, (mergeModel {} cityProfile cityMeta cityStore wrongInst donorInst none [] []).1 =
      .error (.validation msg) :=
  validation_failure_no_writes {} cityProfile cityMeta cityStore wrongInst donorInst none [] []
    (Or.inl (by decide))

/-- C7: in a non-dry-run field phase, the target is persisted through a
partial-field save whose staged set is exactly the keys of the recorded
changes; when nothing changed there is no save at all; fields outside
`profile.fields` keep their stored values, rows other than the target are
untouched, and every changed field's stored value becomes the recorded
`to` value. -/
theorem field_reconciliation_staged_save (p : MergeProfile) (st : Store) (t d : Nat)
    (ov : List (String × Value)) (ctx : SCtx)
    (hnd : (p.fields.map Prod.fst).Nodup) :
    ((fieldPhase p st t d ov false ctx).2.2 =
      if ((fieldPhase p st t d ov false ctx).1).isEmpty then []
      else [.write (.saveFields t (((fieldPhase p st t d ov false ctx).1).map Prod.fst))]) ∧
    ((fieldPhase p st t d ov false ctx).1 = [] → (fieldPhase p st t d ov false ctx).2.1 = st) ∧
    (∀ f, f ∉ p.fields.map Prod.fst →
      getF (rowOf (fieldPhase p st t d ov false ctx).2.1 t) f = getF (rowOf st t) f) ∧
    (∀ pk, pk ≠ t → rowOf (fieldPhase p st t d ov false ctx).2.1 pk = rowOf st pk) ∧
    (∀ fn ce, (fn, ce) ∈ (fieldPhase p st t d ov false ctx).1 →
      getF (rowOf (fieldPhase p st t d ov false ctx).2.1 t) fn = ce.toVal) := by
  have hUF := applyFieldUpdates_real_updateFields p.fields (rowOf st t) (rowOf st d) ov ctx
  simp only [fieldPhase]
  split
  · next hc =>
    have hne : ¬ ((applyFieldUpdates p.fields (rowOf st t) (rowOf st d) ov false
        ctx).1).isEmpty = true := by
      intro hE
      refine hc.2 ?_
      rw [hUF]
      cases hE2 : (applyFieldUpdates p.fields (rowOf st t) (rowOf st d) ov false ctx).1 with
      | nil => simp
      | cons a l => simp [hE2] at hE
    refine ⟨?_, ?_, ?_, ?_, ?_⟩
    · simp only [hne, if_false]
      rw [hUF]
      simp
    · intro hnil
      rw [hnil] at hne
      simp at hne
    · intro f hf
      have hfn : f ∉ (applyFieldUpdates p.fields (rowOf st t) (rowOf st d) ov false
          ctx).2.2 := by
        rw [hUF]
        intro hc2
        exact hf (applyFieldUpdates_keys_subset p.fields (rowOf st t) (rowOf st d) ov false
          ctx f hc2)
      rw [rowOf_saveRow_self, getF_foldl_setF_not_mem _ _ _ _ hfn]
    · intro pk hpk
      exact rowOf_saveRow_ne st t pk _ _ hpk
    · intro fn ce hmem
      have hfn : fn ∈ (applyFieldUpdates p.fields (rowOf st t) (rowOf st d) ov false
          ctx).2.2 := by
        rw [hUF]
        exact List.mem_map_of_mem Prod.fst hmem
      rw [rowOf_saveRow_self, getF_foldl_setF_mem _ _ _ _ hfn]
      exact applyFieldUpdates_final_mem p.fields (rowOf st t) (rowOf st d) ov ctx fn ce
        hnd hmem
  · next hc =>
    have hE : ((applyFieldUpdates p.fields (rowOf st t) (rowOf st d) ov false
        ctx).2.2).isEmpty = true := by
      by_cases hE2 : ((applyFieldUpdates p.fields (rowOf st t) (rowOf st d) ov false
          ctx).2.2).isEmpty = true
      · exact hE2
      · exact absurd ⟨by simp, hE2⟩ hc
    have hnil : (applyFieldUpdates p.fields (rowOf st t) (rowOf st d) ov false ctx).2.2
        = [] := by
      cases hE2 : (applyFieldUpdates p.fields (rowOf st t) (rowOf st d) ov false ctx).2.2 with
      | nil => rfl
      | cons a l =>
        rw [hE2] at hE
        simp at hE
    have hcnil : (applyFieldUpdates p.fields (rowOf st t) (rowOf st d) ov false ctx).1
        = [] := by
      rw [hUF] at hnil
      cases hc2 : (applyFieldUpdates p.fields (rowOf st t) (rowOf st d) ov false ctx).1 with
      | nil => rfl
      | cons a l =>
        rw [hc2] at hnil
        simp at hnil
    refine ⟨?_, fun _ => rfl, fun _ _ => rfl, fun _ _ => rfl, ?_⟩
    · rw [hcnil]
      rfl
    · intro fn ce hmem
      rw [hcnil] at hmem
      exact absurd hmem (List.not_mem_nil _)

/-- C7 witness: at the concrete City scenario, the non-target row and a
field outside `profile.fields` are untouched by field reconciliation. -/
theorem field_reconciliation_staged_save_witness :
    getF (rowOf (fieldPhase cityProfile cityStore 1 2 [] false []).2.1 1) "is_active" =
      getF (rowOf cityStore 1) "is_active" ∧
    rowOf (fieldPhase cityProfile cityStore 1 2 [] false []).2.1 2 = rowOf cityStore 2 :=
  ⟨(field_reconciliation_staged_save cityProfile cityStore 1 2 [] [] (by decide)).2.2.1
      "is_active" (by decide),
   (field_reconciliation_staged_save cityProfile cityStore 1 2 [] [] (by decide)).2.2.2.1
      2 (by decide)⟩

/-- C9: a dry-run merge leaves the store exactly as it was, so running the
same merge twice with `dryRun=true` returns identical results (equal
`changedFields`, `relations` and every other component) with no
accumulated side effect on the target or donor. -/
theorem dry_run_idempotent (s : Settings) (p : MergeProfile) (meta : EntityMeta) (st : Store)
    (target donor : Inst) (ov : List (String × Value)) (ctx : SCtx)
    (hT : p.model ∈ target.classes) (hD : p.model ∈ donor.classes) :
    (mergeModel s p meta st target donor (some true) ov ctx).2.1 = st ∧
    mergeModel s p meta (mergeModel s p meta st target donor (some true) ov ctx).2.1
      target donor (some true) ov ctx =
      mergeModel s p meta st target donor (some true) ov ctx := by
  have hv : validateInstances p target donor = none := by
    simp [validateInstances, hT, hD]
  have hst : (mergeModel s p meta st target donor (some true) ov ctx).2.1 = st := by
    simp only [mergeModel, hv, Option.getD_some]
    exact (executeModel_dry_noop s p meta st target.pk donor.pk ov
      (setA ctx "dry_run" (.vbool true))).1
  exact ⟨hst, by rw [hst]⟩

/-- C9 witness: the concrete City dry-run merge, run twice. -/
theorem dry_run_idempotent_witness :
    (mergeModel {} cityProfile cityMeta cityStore targetInst donorInst (some true) [] []).2.1 =
      cityStore ∧
    mergeModel {} cityProfile cityMeta
      (mergeModel {} cityProfile cityMeta cityStore targetInst donorInst
        (some true) [] []).2.1 targetInst donorInst (some true) [] [] =
      mergeModel {} cityProfile cityMeta cityStore targetInst donorInst (some true) [] [] :=
  dry_run_idempotent {} cityProfile cityMeta cityStore targetInst donorInst [] []
    (by decide) (by decide)

/-- C6 (amended): with `hard_delete=True` a real merge skips soft-delete
(section `reason = hard_delete_enabled`, `applied:false`), deletes the
donor as the very last step (after the post-hooks), reports
`enabled:true, applied:true` and the donor's prior primary key under key
`pk` (stringified); a dry run keeps the donor and leaves
`applied:false`. -/
theorem hard_delete_behaviour (s : Settings) (p : MergeProfile) (meta : EntityMeta)
    (st : Store) (t d : Nat) (ov : List (String × Value)) (ctx : SCtx)
    (hh : p.hardDelete = true) :
    (executeModel s p meta st t d false ov ctx).softDelete =
      [("applied", .vbool false), ("reason", .vstr "hard_delete_enabled"),
       ("dry_run", .vbool false)] ∧
    (executeModel s p meta st t d false ov ctx).hardDelete =
      [("enabled", .vbool true), ("applied", .vbool true), ("dry_run", .vbool false),
       ("pk", .vstr (toString d))] ∧
    rowExists (executeModel s p meta st t d false ov ctx).store d = false ∧
    (executeModel s p meta st t d false ov ctx).events.getLast? =
      some (.write (.deleteOp d)) ∧
    (executeModel s p meta st t d true ov ctx).store = st ∧
    (executeModel s p meta st t d true ov ctx).softDelete =
      [("applied", .vbool false), ("reason", .vstr "hard_delete_enabled"),
       ("dry_run", .vbool true)] ∧
    (executeModel s p meta st t d true ov ctx).hardDelete =
      [("enabled", .vbool true), ("applied", .vbool false), ("dry_run", .vbool true)] := by
  refine ⟨?_, ?_, ?_, ?_, (executeModel_dry_noop s p meta st t d ov ctx).1, ?_, ?_⟩
  · simp [executeModel, hh]
  · simp [executeModel, hh, setA]
  · simp [executeModel, hh, rowExists_deleteRow]
  · simp [executeModel, hh, List.getLast?_append]
  · simp [executeModel, hh]
  · simp [executeModel, hh]

/-- C6 witness: the concrete hard-delete scenario. -/
theorem hard_delete_behaviour_witness :
    rowExists (executeModel {} cityHardProfile cityMeta cityStore 1 2 false [] []).store 2 =
      false ∧
    (executeModel {} cityHardProfile cityMeta cityStore 1 2 false [] []).hardDelete =
      [("enabled", .vbool true), ("applied", .vbool true), ("dry_run", .vbool false),
       ("pk", .vstr "2")] ∧
    (executeModel {} cityHardProfile cityMeta cityStore 1 2 true [] []).store = cityStore :=
  ⟨(hard_delete_behaviour {} cityHardProfile cityMeta cityStore 1 2 [] [] (by decide)).2.2.1,
   (hard_delete_behaviour {} cityHardProfile cityMeta cityStore 1 2 [] [] (by decide)).2.1,
   (hard_delete_behaviour {} cityHardProfile cityMeta cityStore 1 2 [] []
     (by decide)).2.2.2.2.1⟩

/-- C6 counterexample: the hard-delete section stores the donor's prior
identifier under key `pk`, not under key `id` as the claim states. -/
theorem hard_delete_pk_key_not_id :
    lookupA (executeModel {} cityHardProfile cityMeta cityStore 1 2 false [] []).hardDelete
      "id" = none ∧
    lookupA (executeModel {} cityHardProfile cityMeta cityStore 1 2 false [] []).hardDelete
      "pk" = some (.vstr "2") := by
  constructor <;> rfl

/-- C1 (amended): a dry-run `_execute` leaves the store untouched and
issues zero write operations, and its `changedFields` and `relations`
sections are identical to a real run from the same store; the
`softDelete` section is identical except for the `dry_run` flag entry it
carries, which records the respective mode. -/
theorem dry_run_parity (s : Settings) (p : MergeProfile) (meta : EntityMeta) (st : Store)
    (t d : Nat) (ov : List (String × Value)) (ctx : SCtx)
    (hfld : (p.fields.map Prod.fst).Nodup)
    (hth : (meta.manyToMany.map (fun f => f.through)).Nodup)
    (hfk : (meta.reverseRels.filterMap ReverseRel.fkAccessorOf).Nodup) :
    (executeModel s p meta st t d true ov ctx).store = st ∧
    writesOf (executeModel s p meta st t d true ov ctx).events = [] ∧
    (executeModel s p meta st t d true ov ctx).changedFields =
      (executeModel s p meta st t d false ov ctx).changedFields ∧
    (executeModel s p meta st t d true ov ctx).relations =
      (executeModel s p meta st t d false ov ctx).relations ∧
    removeA (executeModel s p meta st t d true ov ctx).softDelete "dry_run" =
      removeA (executeModel s p meta st t d false ov ctx).softDelete "dry_run" := by
  obtain ⟨hstore, hwrites⟩ := executeModel_dry_noop s p meta st t d ov ctx
  refine ⟨hstore, hwrites, ?_, ?_, ?_⟩
  · have hD : (executeModel s p meta st t d true ov ctx).changedFields =
        (fieldPhase p st t d ov true ctx).1 := rfl
    have hR : (executeModel s p meta st t d false ov ctx).changedFields =
        (fieldPhase p st t d ov false ctx).1 := rfl
    rw [hD, hR, fieldPhase_changes, fieldPhase_changes]
    exact (applyFieldUpdates_changes_congr p.fields (rowOf st t) (rowOf st t) (rowOf st d)
      ov ctx hfld (fun _ _ => rfl)).symm
  · have hD : (executeModel s p meta st t d true ov ctx).relations =
        (transferRelations meta (fieldPhase p st t d ov true ctx).2.1 t d true).1 := rfl
    have hR : (executeModel s p meta st t d false ov ctx).relations =
        (transferRelations meta (fieldPhase p st t d ov false ctx).2.1 t d false).1 := rfl
    rw [hD, hR, (fieldPhase_dry p st t d ov ctx).1]
    exact (transferRelations_congr meta st (fieldPhase p st t d ov false ctx).2.1 t d hth hfk
      (fieldPhase_links p st t d ov false ctx) (fieldPhase_fks p st t d ov false ctx)).symm
  · by_cases hh : p.hardDelete = true
    · have hD : (executeModel s p meta st t d true ov ctx).softDelete =
          [("applied", .vbool false), ("reason", .vstr "hard_delete_enabled"),
           ("dry_run", .vbool true)] := by simp [executeModel, hh]
      have hR : (executeModel s p meta st t d false ov ctx).softDelete =
          [("applied", .vbool false), ("reason", .vstr "hard_delete_enabled"),
           ("dry_run", .vbool false)] := by simp [executeModel, hh]
      rw [hD, hR]
      rfl
    · have hh' : p.hardDelete = false := by
        cases hp : p.hardDelete
        · rfl
        · exact absurd hp hh
      have hD : (executeModel s p meta st t d true ov ctx).softDelete =
          (applySoftDelete s p (rowOf st d)
            (transferRelations meta (fieldPhase p st t d ov true ctx).2.1 t d true).2.1
            d true).1 := by simp [executeModel, hh']
      have hR : (executeModel s p meta st t d false ov ctx).softDelete =
          (applySoftDelete s p (rowOf st d)
            (transferRelations meta (fieldPhase p st t d ov false ctx).2.1 t d false).2.1
            d false).1 := by simp [executeModel, hh']
      rw [hD, hR]
      exact applySoftDelete_info_parity s p (rowOf st d) _ _ d

/-- C1 witness: the concrete City scenario instantiating the amended
parity theorem. -/
theorem dry_run_parity_witness :
    (executeModel {} cityProfile cityMeta cityStore 1 2 true [] []).store = cityStore ∧
    (executeModel {} cityProfile cityMeta cityStore 1 2 true [] []).changedFields =
      (executeModel {} cityProfile cityMeta cityStore 1 2 false [] []).changedFields ∧
    removeA (executeModel {} cityProfile cityMeta cityStore 1 2 true [] []).softDelete
        "dry_run" =
      removeA (executeModel {} cityProfile cityMeta cityStore 1 2 false [] []).softDelete
        "dry_run" := by
  have h := dry_run_parity {} cityProfile cityMeta cityStore 1 2 [] []
    (by decide) (by decide) (by decide)
  exact ⟨h.1, h.2.2.1, h.2.2.2.2⟩

/-- C1 counterexample: the softDelete sections of a dry and a real run are
not literally identical — the `dry_run` flag inside the section differs —
so the claim's "identical softDelete section" fails as stated. -/
theorem dry_run_softDelete_not_identical :
    (executeModel {} cityProfile cityMeta cityStore 1 2 true [] []).softDelete ≠
      (executeModel {} cityProfile cityMeta cityStore 1 2 false [] []).softDelete := by
  decide

/-- C8: in relationship transfer every relation is visited at most once:
each relation name appears at most once in the relations section, a
reverse many-to-many whose join table was already handled forward is
skipped, every join table's links are moved by at most one add operation,
and a dry run computes the same relation counts while writing nothing. -/
theorem relations_visited_once (meta : EntityMeta) (st : Store) (t d : Nat)
    (hth : (meta.manyToMany.map (fun f => f.through)).Nodup)
    (hnames : ((meta.manyToMany.map (fun f => f.name)) ++
      (meta.reverseRels.map ReverseRel.accessorName)).Nodup) :
    ((transferRelations meta st t d false).1.map Prod.fst).Nodup ∧
    (∀ acc th rm, ReverseRel.m2m acc th rm ∈ meta.reverseRels →
      th ∈ meta.manyToMany.map (fun f => f.through) →
      acc ∉ (transferRelations meta st t d false).1.map Prod.fst) ∧
    ((writesOf (transferRelations meta st t d false).2.2).filterMap addThroughOf).Nodup ∧
    (transferRelations meta st t d true).2.1 = st ∧
    (transferRelations meta st t d true).2.2 = [] ∧
    (transferRelations meta st t d true).1 = (transferRelations meta st t d false).1 := by
  obtain ⟨ndN, ndA, disj⟩ := List.nodup_append.mp hnames
  have hfk : (meta.reverseRels.filterMap ReverseRel.fkAccessorOf).Nodup :=
    List.Nodup.sublist (fkAccessors_sublist meta.reverseRels) ndA
  have hfwdkeys := transferForward_keys meta.manyToMany st t d false
  have hrevsub := transferReverse_keys_sublist meta.reverseRels
    (transferForward meta.manyToMany st t d false).2.2.2
    (transferForward meta.manyToMany st t d false).2.1 t d false
  have hproc := transferForward_processed meta.manyToMany st t d false
  have hkeyeq : (transferRelations meta st t d false).1.map Prod.fst =
      (transferForward meta.manyToMany st t d false).1.map Prod.fst ++
      (transferReverse meta.reverseRels
        (transferForward meta.manyToMany st t d false).2.2.2
        (transferForward meta.manyToMany st t d false).2.1 t d false).1.map Prod.fst := by
    simp [transferRelations, List.map_append]
  refine ⟨?_, ?_, ?_, (transferRelations_dry meta st t d).1,
    (transferRelations_dry meta st t d).2, ?_⟩
  · rw [hkeyeq]
    refine List.Nodup.append ?_ (List.Nodup.sublist hrevsub ndA) ?_
    · rw [hfwdkeys]
      exact ndN
    · intro x hx hx2
      rw [hfwdkeys] at hx
      exact disj hx (hrevsub.mem hx2)
  · intro acc th rm hmem hthmem
    rw [hkeyeq]
    intro hc
    rcases List.mem_append.mp hc with h1 | h1
    · rw [hfwdkeys] at h1
      have haccA : acc ∈ meta.reverseRels.map ReverseRel.accessorName := by
        have := List.mem_map_of_mem ReverseRel.accessorName hmem
        simpa [ReverseRel.accessorName] using this
      exact disj h1 haccA
    · exact transferReverse_skip_not_key meta.reverseRels
        (transferForward meta.manyToMany st t d false).2.2.2
        (transferForward meta.manyToMany st t d false).2.1 t d false acc th rm hmem
        (by rw [hproc]; exact hthmem) ndA h1
  · have hevents : writesOf (transferRelations meta st t d false).2.2 =
        writesOf (transferForward meta.manyToMany st t d false).2.2.1 ++
        writesOf (transferReverse meta.reverseRels
          (transferForward meta.manyToMany st t d false).2.2.2
          (transferForward meta.manyToMany st t d false).2.1 t d false).2.2 := by
      simp [transferRelations, writesOf_append]
    rw [hevents, List.filterMap_append]
    have hfsub := transferForward_addThroughs meta.manyToMany st t d false
    obtain ⟨hrnd, hrnotin⟩ := transferReverse_addThroughs meta.reverseRels
      (transferForward meta.manyToMany st t d false).2.2.2
      (transferForward meta.manyToMany st t d false).2.1 t d false
    refine List.Nodup.append (List.Nodup.sublist hfsub hth) hrnd ?_
    intro x hx hx2
    exact (hrnotin x hx2) (by rw [hproc]; exact hfsub.mem hx)
  · exact (transferRelations_congr meta st st t d hth hfk (fun _ => rfl) (fun _ => rfl)).symm

/-- C8 witness: the City schema, whose self-referential join table
`City_tags` is seen both forward (`tags`) and reverse (`cities`): the
reverse occurrence contributes no relations entry. -/
theorem relations_visited_once_witness :
    ((transferRelations cityMeta cityStore 1 2 false).1.map Prod.fst).Nodup ∧
    "cities" ∉ (transferRelations cityMeta cityStore 1 2 false).1.map Prod.fst ∧
    (transferRelations cityMeta cityStore 1 2 true).1 =
      (transferRelations cityMeta cityStore 1 2 false).1 :=
  ⟨(relations_visited_once cityMeta cityStore 1 2 (by decide) (by decide)).1,
   (relations_visited_once cityMeta cityStore 1 2 (by decide) (by decide)).2.1
     "cities" "City_tags" "City" (by decide) (by decide),
   (relations_visited_once cityMeta cityStore 1 2 (by decide) (by decide)).2.2.2.2.2⟩

end MergeManager











